import Mathlib

/-!
Verification development for the `geo-polygonize` crate: a shallow embedding
of the polygonization pipeline (noding, planar-graph construction, ring
extraction, shell/hole classification and hole assignment) together with
theorems settling the specification claims.

Modelling conventions.
The Rust code computes over 64-bit floats; the embedding computes over `Rat`,
so floating-point rounding is idealized away while every formula, tolerance
constant and branch of the source is kept.  External collaborators (the `geo`
geometry library, the `rstar` R-tree and the `robust` predicates) are modelled
by their documented contracts: the R-tree candidate query returns exactly the
index pairs whose bounding boxes intersect, `orient2d` is the exact sign of
the determinant (which is what an adaptive exact predicate computes),
`line_intersection` is exact rational segment intersection.  Rust's
`sort_unstable_by`/`sort_by` with a comparator `cmp` are modelled by a
stable structural sort with the total relation `cmp ≠ .gt`; on the values
the code sorts this is a deterministic refinement of the unspecified unstable
order.  `f64::atan2` appears only through comparisons of precomputed angles,
and is modelled by the exact real `atan2` order on direction vectors.
-/

/- Batteries marks the `Rat` field operations `@[irreducible]`, which blocks
kernel evaluation of the closed instances below; they are restored to the
semireducible default for this file. -/
set_option allowUnsafeReducibility true
attribute [local semireducible] Rat.add Rat.sub Rat.mul Rat.inv

namespace GeoPolygonize

/-- Absolute value on `Rat` written with an explicit branch (`f64::abs`);
Mathlib's lattice `abs` does not evaluate under the kernel. -/
def rabs (q : Rat) : Rat := if q < 0 then -q else q

/-- Minimum on `Rat` with an explicit branch (`f64::min`). -/
def rmin (a b : Rat) : Rat := if a ≤ b then a else b

/-- Maximum on `Rat` with an explicit branch (`f64::max`). -/
def rmax (a b : Rat) : Rat := if a ≤ b then b else a

/-- Three-way comparison on `Rat` with explicit branches (`partial_cmp` on
floats, which is total on the NaN-free rational model). -/
def rcmp (a b : Rat) : Ordering := if a < b then .lt else if b < a then .gt else .eq

theorem rabs_eq_abs (q : Rat) : rabs q = abs q := by
  unfold rabs
  split
  · rw [abs_of_neg (by assumption)]
  · rw [abs_of_nonneg (by linarith [not_lt.mp (by assumption : ¬ q < 0)])]

/-- Stable sort by a boolean comparator: the model of Rust's `sort_by` (and a
deterministic refinement of `sort_unstable_by`).  A stable sort is a unique
function of the comparator, so insertion sort is used for its structural
recursion. -/
def stableSort (le : α → α → Bool) (l : List α) : List α :=
  List.insertionSort (fun a b => le a b = true) l

/-- A planar coordinate (`geo_types::Coord<f64>`), with exact rational
components in place of 64-bit floats. -/
structure Pt where
  x : Rat
  y : Rat
deriving DecidableEq, Repr

instance : Inhabited Pt := ⟨⟨0, 0⟩⟩

/-- A line segment (`geo::Line<f64>`).  The source field `end` is a Lean
keyword and is rendered `stop`. -/
structure Seg where
  start : Pt
  stop : Pt
deriving DecidableEq, Repr

instance : Inhabited Seg := ⟨⟨default, default⟩⟩

/-- The noding tolerance `tol = 1e-10` of `node_lines`. -/
def tol : Rat := 1 / 10000000000

/-- The degenerate-segment tolerance `1e-12`. -/
def em12 : Rat := 1 / 1000000000000

/-- The degenerate-ring area threshold `1e-9`. -/
def em9 : Rat := 1 / 1000000000

/-- The area tolerance `1e-6` used by twin matching, hole assignment and the
final area filter. -/
def em6 : Rat := 1 / 1000000

/-- Twice the signed area of the triangle `p q r`: the exact value of the
robust `orient2d` determinant. -/
def cross3 (p q r : Pt) : Rat :=
  (q.x - p.x) * (r.y - p.y) - (q.y - p.y) * (r.x - p.x)

/-- Cross product of two direction vectors. -/
def crossV (u v : Pt) : Rat := u.x * v.y - u.y * v.x

/-- Dot product of two direction vectors. -/
def dotV (u v : Pt) : Rat := u.x * v.x + u.y * v.y

/-- Squared distance between two coordinates (`powi(2)` sums in the source). -/
def dist2 (a b : Pt) : Rat := (a.x - b.x) * (a.x - b.x) + (a.y - b.y) * (a.y - b.y)

/-- Twice the shoelace sum of a coordinate sequence: the sum of
`p.x * q.y - q.x * p.y` over consecutive pairs.  For the closed rings the
pipeline produces, `shoelace r / 2` is the signed area that `geo`'s `Area`
collaborator computes. -/
def shoelace : List Pt → Rat
  | p :: q :: rest => (p.x * q.y - q.x * p.y) + shoelace (q :: rest)
  | _ => 0

/-- Signed area of a ring, the model of `geo`'s `signed_area`. -/
def signedArea (r : List Pt) : Rat := shoelace r / 2

/-- Unsigned area of a ring, the model of `geo`'s `unsigned_area` on a
hole-free polygon. -/
def unsignedArea (r : List Pt) : Rat := rabs (signedArea r)

/-- An axis-aligned bounding box given as (minX, minY, maxX, maxY). -/
structure BBox where
  minX : Rat
  minY : Rat
  maxX : Rat
  maxY : Rat
deriving DecidableEq, Repr

/-- Bounding box of a segment (the `RTreeObject` envelope of `IndexedLine`). -/
def segBBox (s : Seg) : BBox :=
  ⟨rmin s.start.x s.stop.x, rmin s.start.y s.stop.y,
   rmax s.start.x s.stop.x, rmax s.start.y s.stop.y⟩

/-- Closed-interval intersection of two bounding boxes: the `rstar` AABB
intersection contract. -/
def bboxIntersects (a b : BBox) : Bool :=
  a.minX ≤ b.maxX && b.minX ≤ a.maxX && a.minY ≤ b.maxY && b.minY ≤ a.maxY

/-- Sign of a rational number as an `Int` in {-1, 0, 1}. -/
def rsign (q : Rat) : Int := if q > 0 then 1 else if q < 0 then -1 else 0

/-- Exact test that `p` lies on the closed segment `s`. -/
def onSeg (p : Pt) (s : Seg) : Bool :=
  cross3 s.start s.stop p = 0 &&
  rmin s.start.x s.stop.x ≤ p.x && p.x ≤ rmax s.start.x s.stop.x &&
  rmin s.start.y s.stop.y ≤ p.y && p.y ≤ rmax s.start.y s.stop.y

/-- Exact segment intersection test: the model of `geo`'s `Intersects`
collaborator, true exactly when the two closed segments share a point. -/
def segIntersects (s t : Seg) : Bool :=
  let o1 := rsign (cross3 s.start s.stop t.start)
  let o2 := rsign (cross3 s.start s.stop t.stop)
  let o3 := rsign (cross3 t.start t.stop s.start)
  let o4 := rsign (cross3 t.start t.stop s.stop)
  (o1 ≠ o2 && o3 ≠ o4) ||
  (o1 = 0 && onSeg t.start s) || (o2 = 0 && onSeg t.stop s) ||
  (o3 = 0 && onSeg s.start t) || (o4 = 0 && onSeg s.stop t)

/-- Result of `geo::algorithm::line_intersection::line_intersection`: either a
single intersection point or a collinear overlap sub-segment.  The `is_proper`
flag of the source is dropped because `node_lines` and `SnapNoder` ignore it. -/
inductive LineInter where
  | single : Pt → LineInter
  | collinear : Seg → LineInter
deriving DecidableEq, Repr

/-- Exact rational model of `geo`'s `line_intersection` collaborator: `none`
when the closed segments are disjoint, a single point for a transversal or
endpoint contact, and the overlap sub-segment for collinear overlapping
segments (a collinear contact in exactly one point is reported as that single
point, as `geo` does). -/
def lineIntersection (s t : Seg) : Option LineInter :=
  let p := s.start
  let r := Pt.mk (s.stop.x - s.start.x) (s.stop.y - s.start.y)
  let q := t.start
  let s2 := Pt.mk (t.stop.x - t.start.x) (t.stop.y - t.start.y)
  let d := crossV r s2
  let qp := Pt.mk (q.x - p.x) (q.y - p.y)
  if d ≠ 0 then
    let t1 := crossV qp s2 / d
    let u := crossV qp r / d
    if 0 ≤ t1 && t1 ≤ 1 && 0 ≤ u && u ≤ 1 then
      some (.single ⟨p.x + t1 * r.x, p.y + t1 * r.y⟩)
    else none
  else if crossV qp r ≠ 0 then none
  else
    let rr := dotV r r
    let t0 := dotV qp r
    let t1 := t0 + dotV s2 r
    let lo := rmax 0 (rmin t0 t1)
    let hi := rmin rr (rmax t0 t1)
    if lo > hi then none
    else if lo = hi then some (.single ⟨p.x + lo / rr * r.x, p.y + lo / rr * r.y⟩)
    else some (.collinear ⟨⟨p.x + lo / rr * r.x, p.y + lo / rr * r.y⟩,
                           ⟨p.x + hi / rr * r.x, p.y + hi / rr * r.y⟩⟩)

/-- The strict-interior test of `node_lines` (its `is_internal_s1` pattern):
the point is farther than `tol` from both endpoints in x, or farther than
`tol` from both endpoints in y. -/
def isInternal (pt : Pt) (s : Seg) : Bool :=
  (rabs (pt.x - s.start.x) > tol && rabs (pt.x - s.stop.x) > tol) ||
  (rabs (pt.y - s.start.y) > tol && rabs (pt.y - s.stop.y) > tol)

/-- The `process_intersection` closure of `node_lines`: split events produced
by one candidate pair. -/
def processIntersection (idx1 idx2 : Nat) (s1 s2 : Seg) : List (Nat × Pt) :=
  if idx1 ≥ idx2 then []
  else if ¬ segIntersects s1 s2 then []
  else
    match lineIntersection s1 s2 with
    | none => []
    | some (.single pt) =>
        (if isInternal pt s1 then [(idx1, pt)] else []) ++
        (if isInternal pt s2 then [(idx2, pt)] else [])
    | some (.collinear ov) =>
        (if isInternal ov.start s1 then [(idx1, ov.start)] else []) ++
        (if isInternal ov.stop s1 then [(idx1, ov.stop)] else []) ++
        (if isInternal ov.start s2 then [(idx2, ov.start)] else []) ++
        (if isInternal ov.stop s2 then [(idx2, ov.stop)] else [])

/-- All split events of one pass of `node_lines`.  The R-tree self-join is
modelled by its contract: every ordered pair of segments whose envelopes
intersect is a candidate, enumerated here in index order. -/
def collectEvents (segs : List Seg) : List (Nat × Pt) :=
  (List.range segs.length).flatMap fun i =>
    (List.range segs.length).flatMap fun j =>
      let s1 := segs.getD i default
      let s2 := segs.getD j default
      if bboxIntersects (segBBox s1) (segBBox s2) then processIntersection i j s1 s2
      else []

/-- Rust's `Vec::dedup_by`: keep the first element of every run, comparing
each element against the previously retained one. -/
def dedupByGo (p : α → α → Bool) (keep : α) : List α → List α
  | [] => []
  | y :: ys => if p y keep then dedupByGo p keep ys else y :: dedupByGo p y ys

/-- Rust's `Vec::dedup_by` (and `dedup`, with `p := (· = ·)`). -/
def dedupBy (p : α → α → Bool) : List α → List α
  | [] => []
  | x :: xs => x :: dedupByGo p x xs

/-- The event comparator of `node_lines` (`sort_events`): by segment index,
then by the x coordinate of the split point; modelled as the corresponding
total `≤` for the stable merge sort. -/
def evLE (a b : Nat × Pt) : Bool :=
  a.1 < b.1 || (a.1 = b.1 && a.2.x ≤ b.2.x)

/-- Reconstruction of one segment from its recorded split points: sort by
squared distance from the start, de-duplicate within `tol`, and emit the
consecutive sub-segments longer than `tol`. -/
def splitSegment (seg : Seg) (pts : List Pt) : List Seg :=
  if pts.isEmpty then [seg]
  else
    let sorted := stableSort (fun a b => dist2 a seg.start ≤ dist2 b seg.start) pts
    let dd := dedupBy (fun a b => rabs (a.x - b.x) < tol && rabs (a.y - b.y) < tol) sorted
    let step := dd.foldl
      (fun (st : Pt × List Seg) pt =>
        if dist2 pt st.1 > tol * tol then (pt, st.2 ++ [Seg.mk st.1 pt]) else st)
      (seg.start, [])
    if dist2 seg.stop step.1 > tol * tol then step.2 ++ [Seg.mk step.1 seg.stop]
    else step.2

/-- The split-application stage of `node_lines`: sort the events by segment
index (the source then walks them with a moving pointer, which collects for
segment `i` exactly the events carrying index `i`, in sorted order — rendered
here as a filter) and rebuild every segment. -/
def applySplits (segs : List Seg) (events : List (Nat × Pt)) : List Seg :=
  if events.isEmpty then segs
  else
    let sorted := stableSort evLE events
    segs.enum.flatMap fun ie =>
      splitSegment ie.2 ((sorted.filter fun e => e.1 = ie.1).map (·.2))

/-- One endpoint record of the vertex-merge phase: coordinate, owning segment
index, and whether it is the start endpoint. -/
def endpointRecords (segments : List Seg) : List (Pt × Nat × Bool) :=
  segments.enum.flatMap fun ie => [(ie.2.start, ie.1, true), (ie.2.stop, ie.1, false)]

/-- The endpoint comparator of the vertex-merge phase: by x, then y. -/
def ptEntryLE (a b : Pt × Nat × Bool) : Bool :=
  a.1.x < b.1.x || (a.1.x = b.1.x && a.1.y ≤ b.1.y)

/-- Overwrite one endpoint of segment `i` with the cluster representative. -/
def setEndpoint (segments : List Seg) (i : Nat) (isStart : Bool) (rep : Pt) : List Seg :=
  match segments.get? i with
  | none => segments
  | some s => segments.set i (if isStart then ⟨rep, s.stop⟩ else ⟨s.start, rep⟩)

/-- The inner look-ahead loop of the vertex-merge phase: scan forward from the
representative until the x gap exceeds `tol`, merging every unmerged endpoint
within the `tol` box. -/
def mergeInner (rep : Pt) :
    List (Nat × (Pt × Nat × Bool)) → List Bool → List Seg → List Bool × List Seg
  | [], merged, segments => (merged, segments)
  | (j, pj, segIdx, isStart) :: tl, merged, segments =>
    if pj.x - rep.x > tol then (merged, segments)
    else if merged.getD j false then mergeInner rep tl merged segments
    else if rabs (pj.x - rep.x) < tol && rabs (pj.y - rep.y) < tol then
      mergeInner rep tl (merged.set j true) (setEndpoint segments segIdx isStart rep)
    else mergeInner rep tl merged segments

/-- The outer loop of the vertex-merge phase over the sorted endpoint list. -/
def mergeOuter :
    List (Nat × (Pt × Nat × Bool)) → List Bool → List Seg → List Seg
  | [], _, segments => segments
  | (i, pi, _, _) :: tl, merged, segments =>
    if merged.getD i false then mergeOuter tl merged segments
    else
      let ms := mergeInner pi tl merged segments
      mergeOuter tl ms.1 ms.2

/-- The vertex-merge ("Snap Vertices") phase of `node_lines`. -/
def snapVertices (segments : List Seg) : List Seg :=
  let sorted := stableSort ptEntryLE (endpointRecords segments)
  mergeOuter sorted.enum (List.replicate sorted.length false) segments

/-- Direction normalization of `node_lines`: order each segment's endpoints
lexicographically (with the `1e-12` x tie tolerance of the source). -/
def normalizeSeg (s : Seg) : Seg :=
  if s.start.x > s.stop.x || (rabs (s.start.x - s.stop.x) < em12 && s.start.y > s.stop.y)
  then ⟨s.stop, s.start⟩ else s

/-- The final global segment comparator of `node_lines`: lexicographic on
(start.x, start.y, stop.x, stop.y). -/
def segTupleLE (a b : Seg) : Bool :=
  a.start.x < b.start.x ||
  (a.start.x = b.start.x && (a.start.y < b.start.y ||
  (a.start.y = b.start.y && (a.stop.x < b.stop.x ||
  (a.stop.x = b.stop.x && a.stop.y ≤ b.stop.y)))))

/-- Tolerance-based segment equality used by the final `dedup_by`. -/
def segClose (a b : Seg) : Bool :=
  rabs (a.start.x - b.start.x) < tol && rabs (a.start.y - b.start.y) < tol &&
  rabs (a.stop.x - b.stop.x) < tol && rabs (a.stop.y - b.stop.y) < tol

/-- Consecutive segments of a line string (`LineString::lines`). -/
def segsOfLine : List Pt → List Seg
  | p :: q :: rest => Seg.mk p q :: segsOfLine (q :: rest)
  | _ => []

/-- The noder `node_lines` of `polygonizer.rs`: flatten the input line
strings, run one split-finding pass, apply the splits, merge near-coincident
vertices, normalize directions, and globally sort and de-duplicate. -/
def nodeLines (inputLines : List (List Pt)) : List Seg :=
  let segments := inputLines.flatMap segsOfLine
  let events := collectEvents segments
  let segments := applySplits segments events
  let segments := snapVertices segments
  let segments := segments.map normalizeSeg
  let segments := stableSort segTupleLE segments
  dedupBy segClose segments

/-! ## Planar graph (`graph/planar_graph.rs`) -/

/-- A half-edge (`DirectedEdge`).  The source precomputes
`angle = atan2(dy, dx)`; the embedding stores the direction vector `dir`
itself and compares angles through the exact real `atan2` order.  The
`is_visited` traversal flag is reset at the start of `get_edge_rings` and
only read there, so it is threaded through ring extraction as explicit state
instead of being stored in the record. -/
structure DirEdge where
  src : Nat
  dst : Nat
  edgeIdx : Nat
  symIdx : Nat
  dir : Pt
  isMarked : Bool
  edgeDirection : Bool
deriving DecidableEq, Repr

instance : Inhabited DirEdge := ⟨⟨0, 0, 0, 0, default, false, true⟩⟩

/-- An undirected geometric edge (`Edge`). -/
structure GraphEdge where
  line : Seg
  dirEdges : Nat × Nat
  isMarked : Bool
deriving DecidableEq, Repr

/-- The planar graph (`PlanarGraph`), with the source's dense parallel arrays
rendered as lists.  The `node_map` of the source serves only the incremental
`add_node` path, which `polygonize` never takes, and is omitted. -/
structure PlanarGraph where
  nodesX : List Rat
  nodesY : List Rat
  nodesOutgoing : List (List Nat)
  nodesDegree : List Nat
  nodesMarked : List Bool
  edges : List GraphEdge
  directedEdges : List DirEdge
deriving Repr

/-- The empty graph (`PlanarGraph::new`). -/
def PlanarGraph.empty : PlanarGraph := ⟨[], [], [], [], [], [], []⟩

/-- The node-entry comparator of `bulk_load`: by the Morton key `z`, with the
exact coordinates as tie break. -/
def entryLE (z : Pt → Nat) (a b : Pt) : Bool :=
  z a < z b || (z a = z b && (a.x < b.x || (a.x = b.x && a.y ≤ b.y)))

/-- Node lookup of `bulk_load`: a binary search by the `(z, x, y)` key over
the sorted, exactly-deduplicated entry array, which succeeds precisely on the
coordinates present; modelled as the index of the unique occurrence. -/
def getNodeId (entries : List Pt) (pt : Pt) : Option Nat :=
  entries.findIdx? (· = pt)

/-- Append a valid edge: one `Edge` record, the two `DirectedEdge` half-edge
records pointing at each other through `sym`, the outgoing-list pushes and
the degree increments (the tail of `bulk_load`'s construction loop). -/
def addEdge (g : PlanarGraph) (uvl : Nat × Nat × Seg) : PlanarGraph :=
  let u := uvl.1
  let v := uvl.2.1
  let line := uvl.2.2
  let edgeIdx := g.edges.length
  let deUV := g.directedEdges.length
  let deVU := deUV + 1
  let ux := g.nodesX.getD u 0
  let uy := g.nodesY.getD u 0
  let vx := g.nodesX.getD v 0
  let vy := g.nodesY.getD v 0
  { g with
    directedEdges := g.directedEdges ++
      [⟨u, v, edgeIdx, deVU, ⟨vx - ux, vy - uy⟩, false, true⟩,
       ⟨v, u, edgeIdx, deUV, ⟨ux - vx, uy - vy⟩, false, false⟩],
    edges := g.edges ++ [⟨line, (deUV, deVU), false⟩],
    nodesOutgoing := (g.nodesOutgoing.set u (g.nodesOutgoing.getD u [] ++ [deUV])).set v
      (((g.nodesOutgoing.set u (g.nodesOutgoing.getD u [] ++ [deUV])).getD v []) ++ [deVU]),
    nodesDegree := (g.nodesDegree.set u (g.nodesDegree.getD u 0 + 1)).set v
      (((g.nodesDegree.set u (g.nodesDegree.getD u 0 + 1)).getD v 0) + 1) }

/-- `bulk_load` on a fresh graph (the only way `polygonize` uses it): collect
and `(z, x, y)`-sort the endpoints, de-duplicate them by exact equality into
the node array, then build an edge for every non-degenerate segment whose
endpoints resolve.  `z` abstracts the `z_order_index` Morton code, a pure
function of the coordinate whose concrete bit pattern no claim depends on. -/
def bulkLoad (z : Pt → Nat) (lines : List Seg) : PlanarGraph :=
  let entries := stableSort (entryLE z) (lines.flatMap fun l => [l.start, l.stop])
  let entries := dedupBy (fun a b => a = b) entries
  let base : PlanarGraph :=
    { nodesX := entries.map (·.x),
      nodesY := entries.map (·.y),
      nodesOutgoing := entries.map fun _ => [],
      nodesDegree := entries.map fun _ => 0,
      nodesMarked := entries.map fun _ => false,
      edges := [], directedEdges := [] }
  let validEdges := lines.filterMap fun line =>
    if rabs (line.start.x - line.stop.x) < em12 && rabs (line.start.y - line.stop.y) < em12 then none
    else
      match getNodeId entries line.start, getNodeId entries line.stop with
      | some u, some v => some (u, v, line)
      | _, _ => none
  validEdges.foldl addEdge base

/-- Exact comparison of two direction vectors by their real `atan2` value in
`(-pi, pi]`: the model of comparing the precomputed float `angle` fields.
Proportional directions (the only ties the tie-break question is about)
compare equal, exactly as their equal float angles do. -/
def angClass (u : Pt) : Nat :=
  if u.y < 0 then 0 else if u.y = 0 && 0 ≤ u.x then 1 else if 0 < u.y then 2 else 3

def atn2Cmp (u v : Pt) : Ordering :=
  let cu := angClass u
  let cv := angClass v
  if cu < cv then .lt
  else if cv < cu then .gt
  else if cu = 0 || cu = 2 then
    let c := crossV u v
    if 0 < c then .lt else if c < 0 then .gt else .eq
  else .eq

/-- The comparator `sort_edges` actually uses:
`a.angle.partial_cmp(&b.angle).unwrap_or(Equal)` — the angle alone, with no
tie break. -/
def sortEdgesCmp (g : PlanarGraph) (a b : Nat) : Ordering :=
  atn2Cmp (g.directedEdges.getD a default).dir (g.directedEdges.getD b default).dir

/-- `sort_edges`: stable-sort every node's outgoing list by the precomputed
angle. -/
def sortEdges (g : PlanarGraph) : PlanarGraph :=
  { g with nodesOutgoing := g.nodesOutgoing.map fun adj =>
      stableSort (fun a b => sortEdgesCmp g a b ≠ .gt) adj }

/-- The robust angular comparator `compare_angular` of `utils/mod.rs`:
quadrants, then the exact `orient2d` sign, then squared distance.  Defined in
the crate but not called by `sort_edges`. -/
def compareAngular (center ta tb : Pt) : Ordering :=
  if ta = tb then .eq
  else
    let dxa := ta.x - center.x
    let dya := ta.y - center.y
    let dxb := tb.x - center.x
    let dyb := tb.y - center.y
    let qa : Nat := if dxa > 0 && dya ≥ 0 then 0 else if dxa ≤ 0 && dya > 0 then 1
      else if dxa < 0 && dya ≤ 0 then 2 else 3
    let qb : Nat := if dxb > 0 && dyb ≥ 0 then 0 else if dxb ≤ 0 && dyb > 0 then 1
      else if dxb < 0 && dyb ≤ 0 then 2 else 3
    if qa ≠ qb then (if qa < qb then .lt else .gt)
    else
      let orient := cross3 center ta tb
      if orient > 0 then .lt
      else if orient < 0 then .gt
      else rcmp (dist2 ta center) (dist2 tb center)

/-- Count of strictly positive degrees, the termination measure of dangle
pruning. -/
def posCount (l : List Nat) : Nat := l.countP fun d => 0 < d

/-- Mark one directed edge. -/
def markDE (des : List DirEdge) (i : Nat) : List DirEdge :=
  match des.get? i with
  | none => des
  | some d => des.set i { d with isMarked := true }

theorem posCount_set_zero_lt {l : List Nat} {n : Nat} (h : l.getD n 0 = 1) :
    posCount (l.set n 0) < posCount l := by
  induction l generalizing n with
  | nil => simp [List.getD_nil] at h
  | cons a t ih =>
    cases n with
    | zero =>
      simp only [List.getD_cons_zero] at h
      subst h
      simp [posCount, List.countP_cons]
    | succ m =>
      simp only [List.getD_cons_succ] at h
      have hm := ih (n := m) h
      simp only [List.set_cons_succ, posCount, List.countP_cons]
      simp only [posCount] at hm
      omega

theorem posCount_set_le (l : List Nat) (n a : Nat) (h : a ≤ l.getD n 0) :
    posCount (l.set n a) ≤ posCount l := by
  induction l generalizing n with
  | nil => simp [List.set]
  | cons b t ih =>
    cases n with
    | zero =>
      simp only [List.getD_cons_zero] at h
      simp only [List.set_cons_zero, posCount, List.countP_cons]
      have hab : (if decide (0 < a) = true then 1 else 0) ≤
          (if decide (0 < b) = true then 1 else 0) := by
        by_cases ha : 0 < a
        · simp [ha, Nat.lt_of_lt_of_le ha h]
        · simp [ha]
      omega
    | succ m =>
      simp only [List.getD_cons_succ] at h
      have hm := ih m h
      simp only [List.set_cons_succ, posCount, List.countP_cons]
      simp only [posCount] at hm
      omega

/-- Decrement of the pruned node's neighbor degree (guarded on positivity,
as the source does). -/
def pruneNeighbor (deg : List Nat) (neighbor : Nat) : List Nat :=
  if 0 < deg.getD neighbor 0 then deg.set neighbor (deg.getD neighbor 0 - 1) else deg

/-- Worklist extension of `prune_dangles`: push the neighbor when its degree
fell to 1 and it is not marked. -/
def pruneWork2 (deg : List Nat) (marked : List Bool) (neighbor : Nat) (rest : List Nat) :
    List Nat :=
  if deg.getD neighbor 0 = 1 && marked.getD neighbor false = false then neighbor :: rest
  else rest

theorem posCount_pruneNeighbor_le (deg : List Nat) (v : Nat) :
    posCount (pruneNeighbor deg v) ≤ posCount deg := by
  unfold pruneNeighbor
  split
  · exact posCount_set_le _ _ _ (by omega)
  · exact le_refl _

theorem pruneWork2_length_le (deg : List Nat) (marked : List Bool) (v : Nat) (rest : List Nat) :
    (pruneWork2 deg marked v rest).length ≤ rest.length + 1 := by
  unfold pruneWork2
  split <;> simp

/-- The worklist loop of `prune_dangles`.  The source pops from the end of a
vector; the model's worklist is that stack with its top at the head.  The
loop terminates because every processed node loses its positive degree, so it
is rendered by structural recursion on a fuel bound;
`2 * posCount degrees + |worklist|` strictly decreases at every step (the
`posCount` lemmas above), so the fuel `pruneDangles` supplies is never
exhausted. -/
def pruneLoop (fuel : Nat) (g : PlanarGraph) (work : List Nat) (removed : Nat) :
    PlanarGraph × Nat :=
  match fuel with
  | 0 => (g, removed)
  | fuel + 1 =>
    match work with
    | [] => (g, removed)
    | n :: rest =>
      if g.nodesDegree.getD n 0 ≠ 1 then pruneLoop fuel g rest removed
      else
        match (g.nodesOutgoing.getD n []).find?
            (fun de => (g.directedEdges.getD de default).isMarked = false) with
        | none =>
          pruneLoop fuel { g with nodesMarked := g.nodesMarked.set n true,
                                  nodesDegree := g.nodesDegree.set n 0 } rest (removed + 1)
        | some de =>
          let symIdx := (g.directedEdges.getD de default).symIdx
          let neighbor := (g.directedEdges.getD de default).dst
          let deg3 := pruneNeighbor (g.nodesDegree.set n 0) neighbor
          pruneLoop fuel
            { g with nodesMarked := g.nodesMarked.set n true,
                     nodesDegree := deg3,
                     directedEdges := markDE (markDE g.directedEdges de) symIdx }
            (pruneWork2 deg3 (g.nodesMarked.set n true) neighbor rest) (removed + 1)

/-- `prune_dangles`: initialize the worklist with every unmarked degree-1
node (in reverse, since the source pops from the end) and run the loop with
adequate fuel. -/
def pruneDangles (g : PlanarGraph) : PlanarGraph × Nat :=
  let initial := ((List.range g.nodesDegree.length).filter fun i =>
    g.nodesDegree.getD i 0 = 1 && g.nodesMarked.getD i false = false).reverse
  pruneLoop (2 * posCount g.nodesDegree + initial.length + 1) g initial 0

/-! ## Ring extraction (`get_edge_rings`) -/

/-- The next-CCW pointer array of `get_edge_rings`: for every node of nonzero
degree, link its unmarked outgoing edges circularly in adjacency order.  The
`usize::MAX` sentinel of the source is rendered `none`. -/
def buildNextPointers (g : PlanarGraph) : List (Option Nat) :=
  (List.range g.nodesDegree.length).foldl
    (fun next i =>
      if g.nodesDegree.getD i 0 = 0 then next
      else
        let valid := (g.nodesOutgoing.getD i []).filter
          fun idx => (g.directedEdges.getD idx default).isMarked = false
        if valid.isEmpty then next
        else
          (List.range valid.length).foldl
            (fun nx k => nx.set (valid.getD k 0) (some (valid.getD ((k + 1) % valid.length) 0)))
            next)
    (List.replicate g.directedEdges.length none)

/-- Point update of a visited-set function. -/
def updT (f : Nat → Bool) (i : Nat) : Nat → Bool := fun j => if j = i then true else f j

/-- Number of unvisited indices below `n`: the walk termination measure. -/
def countFalseIn (f : Nat → Bool) (n : Nat) : Nat :=
  (List.range n).countP fun i => f i = false

theorem countP_lt_of_witness (p q : Nat → Bool) :
    ∀ l : List Nat, (∀ a ∈ l, p a = true → q a = true) →
      ∀ i ∈ l, p i = false → q i = true → l.countP p < l.countP q := by
  intro l
  induction l with
  | nil => intro _ i hi; simp at hi
  | cons a t ih =>
    intro mono i hi hp hq
    have monoT : ∀ b ∈ t, p b = true → q b = true := fun b hb => mono b (by simp [hb])
    rcases List.mem_cons.mp hi with rfl | hit
    · have hle : t.countP p ≤ t.countP q := List.countP_mono_left monoT
      simp only [List.countP_cons, hp, hq, Bool.false_eq_true, if_false, if_true]
      omega
    · have hlt := ih monoT i hit hp hq
      have hhead : (if p a = true then 1 else 0) ≤ (if q a = true then 1 else 0) := by
        by_cases hpa : p a = true
        · simp [hpa, mono a (by simp) hpa]
        · simp [hpa]
      simp only [List.countP_cons]
      omega

theorem countFalseIn_updT_lt (f : Nat → Bool) {i n : Nat} (hi : i < n) (hf : f i = false) :
    countFalseIn (updT f i) n < countFalseIn f n := by
  unfold countFalseIn
  apply countP_lt_of_witness (fun j => updT f i j = false) (fun j => f j = false)
  · intro a _ ha
    simp only [decide_eq_true_eq] at ha ⊢
    unfold updT at ha
    by_cases hai : a = i
    · simp [hai] at ha
    · simpa [hai] using ha
  · exact List.mem_range.mpr hi
  · simp [updT]
  · simp [hf]

/-- The inner traversal loop of `get_edge_rings`: mark the current half-edge
visited, append it to the ring, and advance to the edge after the reverse
edge in CCW order; close when the start edge is reached again, abandon when
the pointer is missing or a visited edge is re-entered.  Each iteration
visits an unvisited edge, so the loop runs at most `des.length` iterations;
it is rendered by structural recursion on a fuel bound that `edgeRingsLoop`
supplies in excess of that. -/
def ringWalk (next : List (Option Nat)) (des : List DirEdge) (start : Nat) :
    Nat → (Nat → Bool) → Nat → List Nat → (Nat → Bool) × Option (List Nat)
  | 0, visited, _, _ => (visited, none)
  | fuel + 1, visited, curr, acc =>
    let visited2 := updT visited curr
    let acc2 := acc ++ [curr]
    match next.getD (des.getD curr default).symIdx none with
    | none => (visited2, none)
    | some nxt =>
      if nxt = start then (visited2, some acc2)
      else if visited2 nxt then (visited2, none)
      else ringWalk next des start fuel visited2 nxt acc2

/-- The outer loop of `get_edge_rings` over all start half-edge indices,
skipping visited or removed edges and keeping the edge index lists of the
walks that closed. -/
def edgeRingsLoop (next : List (Option Nat)) (des : List DirEdge) :
    List Nat → (Nat → Bool) → List (List Nat) → List (List Nat)
  | [], _, acc => acc
  | s :: rest, visited, acc =>
    if visited s = false && (des.getD s default).isMarked = false then
      let r := ringWalk next des s (des.length + 1) visited s []
      match r.2 with
      | some ringEdges => edgeRingsLoop next des rest r.1 (acc ++ [ringEdges])
      | none => edgeRingsLoop next des rest r.1 acc
    else edgeRingsLoop next des rest visited acc

/-- The rings of `get_edge_rings` as lists of half-edge indices (the
`ring_edges` vectors of the closed walks, in emission order).  The source's
reset of every `is_visited` flag is the all-false initial visited set. -/
def edgeRingsCore (g : PlanarGraph) : List (List Nat) :=
  edgeRingsLoop (buildNextPointers g) g.directedEdges
    (List.range g.directedEdges.length) (fun _ => false) []

/-- Coordinate sequence of one emitted ring: the source of its first edge
followed by the destination of every edge. -/
def ringCoords (g : PlanarGraph) (re : List Nat) : List Pt :=
  match re with
  | [] => []
  | e0 :: _ =>
    let s := (g.directedEdges.getD e0 default).src
    ⟨g.nodesX.getD s 0, g.nodesY.getD s 0⟩ ::
      re.map fun de =>
        let d := (g.directedEdges.getD de default).dst
        ⟨g.nodesX.getD d 0, g.nodesY.getD d 0⟩

/-- `get_edge_rings`: the coordinate rings of the closed walks. -/
def getEdgeRings (g : PlanarGraph) : List (List Pt) :=
  (edgeRingsCore g).map (ringCoords g)

/-! ## Classification, promotion, hole assignment, output
(`polygonize`, lines 118-253 of `polygonizer.rs`) -/

/-- A polygon: one exterior ring and a list of interior rings. -/
structure Poly where
  exterior : List Pt
  interiors : List (List Pt)
deriving DecidableEq, Repr

/-- Bounding rectangle of a ring: the model of `geo`'s `bounding_rect` on the
hole-free polygons the pipeline builds (`None` on an empty ring, as in
`geo`). -/
def ringBBox (r : List Pt) : Option BBox :=
  match r with
  | [] => none
  | p :: rest =>
    some (rest.foldl
      (fun (b : BBox) q => ⟨rmin b.minX q.x, rmin b.minY q.y, rmax b.maxX q.x, rmax b.maxY q.y⟩)
      ⟨p.x, p.y, p.x, p.y⟩)

/-- Bounding rectangle with the `unwrap` of the source: the pipeline only
unwraps rings that came out of a closed walk, which are never empty. -/
def ringBBoxD (r : List Pt) : BBox := (ringBBox r).getD ⟨0, 0, 0, 0⟩

/-- Model of the external `geo` collaborator `make_ccw_winding`: reverse the
ring when its winding is clockwise, i.e. when its signed area is negative
(positive signed area = counter-clockwise, the convention the spec states). -/
def makeCCWWinding (r : List Pt) : List Pt :=
  if signedArea r < 0 then r.reverse else r

/-- One step of the ring classification of `polygonize`: drop a ring of
absolute area below `1e-9`, send a positive area to the shell list and the
rest to the hole list. -/
def classifyStep (sh : List (List Pt) × List (List Pt)) (ring : List Pt) :
    List (List Pt) × List (List Pt) :=
  let area := signedArea ring
  if rabs area < em9 then sh
  else if area > 0 then (sh.1 ++ [ring], sh.2)
  else (sh.1, sh.2 ++ [ring])

/-- Ring classification of `polygonize`, preserving order. -/
def classifyRings (rings : List (List Pt)) : List (List Pt) × List (List Pt) :=
  rings.foldl classifyStep ([], [])

/-- The `process_holes` closure of `polygonize`: promote a hole with no twin
shell (matched by unsigned area within `1e-6` and an identical bounding
rectangle) to a shell by reversing its winding. -/
def processHoles (shells : List (List Pt)) (hole : List Pt) : Option (List Pt) :=
  let holeArea := unsignedArea hole
  let hasTwin := shells.any fun shell =>
    rabs (unsignedArea shell - holeArea) < em6 && ringBBox shell = ringBBox hole
  if hasTwin = false then some (makeCCWWinding hole) else none

/-- The R-tree candidate query of `process_hole_assignment`
(`locate_in_envelope_intersecting`): the indexed shells whose bounding box
intersects the hole's, by the R-tree collaborator's contract, enumerated in
index order. -/
def holeCandidates (shells : List (List Pt)) (holePoly : List Pt) : List (Nat × List Pt) :=
  shells.enum.filter fun is => bboxIntersects (ringBBoxD is.2) (ringBBoxD holePoly)

/-- One candidate step of `process_hole_assignment`: keep the running
best (index, area) pair, replacing it when the candidate contains the hole,
its area exceeds the hole's by more than `1e-6`, and it improves on the
current minimum (`min_area`, whose `f64::MAX` initialization is rendered by
the `Option`). -/
def assignStep (contains : List Pt → List Pt → Bool) (holePoly : List Pt)
    (best : Option (Nat × Rat)) (is : Nat × List Pt) : Option (Nat × Rat) :=
  if contains is.2 holePoly then
    let area := unsignedArea is.2
    let holeArea := unsignedArea holePoly
    if area > holeArea + em6 && (match best with
        | none => true
        | some b => area < b.2) then some (is.1, area)
    else best
  else best

/-- The `process_hole_assignment` closure of `polygonize`, with the `geo`
containment predicate as an explicit collaborator parameter: among the
candidates, select a containing shell of minimal unsigned area among those
whose area exceeds the hole's by more than `1e-6`; `none` discards the hole. -/
def processHoleAssignment (contains : List Pt → List Pt → Bool)
    (shells : List (List Pt)) (holePoly : List Pt) : Option (Nat × List Pt) :=
  let best := (holeCandidates shells holePoly).foldl (assignStep contains holePoly) none
  best.map fun b => (b.1, holePoly)

/-- Net polygon area, the model of `geo`'s `unsigned_area` on a polygon with
holes (the spec's shell minus holes). -/
def polyUnsignedArea (p : Poly) : Rat :=
  unsignedArea p.exterior - (p.interiors.map unsignedArea).sum

/-- The shell list after orphan promotion: the classified shells followed by
the promoted holes (`shells.extend(promoted_shells)` of the source). -/
def assembleShells2 (rings : List (List Pt)) : List (List Pt) :=
  (classifyRings rings).1 ++
    (classifyRings rings).2.filterMap (processHoles (classifyRings rings).1)

/-- The hole assignments (the `assignments` vector of the source, in hole
order — the sequential arm of the parallel `filter_map`). -/
def assembleAssignments (contains : List Pt → List Pt → Bool) (rings : List (List Pt)) :
    List (Nat × List Pt) :=
  (classifyRings rings).2.filterMap (processHoleAssignment contains (assembleShells2 rings))

/-- The per-shell hole lists (`shell_holes`), built by pushing each
assignment into its shell's slot. -/
def assembleShellHoles (contains : List Pt → List Pt → Bool) (rings : List (List Pt)) :
    List (List (List Pt)) :=
  (assembleAssignments contains rings).foldl
    (fun (acc : List (List (List Pt))) a => acc.set a.1 (acc.getD a.1 [] ++ [a.2]))
    (List.replicate (assembleShells2 rings).length [])

/-- The classification-to-output stage of `polygonize` (everything after
`get_edge_rings`): classify, promote orphan holes, assign holes to shells,
group, and filter collapsed polygons. -/
def assemblePolygons (contains : List Pt → List Pt → Bool) (rings : List (List Pt)) :
    List Poly :=
  (assembleShells2 rings).enum.filterMap fun is =>
    let poly : Poly := ⟨is.2, (assembleShellHoles contains rings).getD is.1 []⟩
    if polyUnsignedArea poly > em6 then some poly else none

/-! ## Orchestrator (`polygonizer.rs` `Polygonizer`) -/

/-- The error type of `error.rs`. -/
inductive PolygonizerError where
  | topologyError : String → PolygonizerError
  | invalidGeometry : String → PolygonizerError
  | nodingError : String → PolygonizerError
deriving DecidableEq, Repr

/-- The input geometry type (`geo_types::Geometry`), restricted to the
variants `extract_lines` inspects plus `point` for the ignored arm. -/
inductive Geometry where
  | point : Pt → Geometry
  | lineString : List Pt → Geometry
  | multiLineString : List (List Pt) → Geometry
  | polygon : List Pt → List (List Pt) → Geometry
  | multiPolygon : List (List Pt × List (List Pt)) → Geometry
  | collection : List Geometry → Geometry

mutual

/-- `extract_lines`: flatten a geometry to its line strings. -/
def extractLines : Geometry → List (List Pt)
  | .point _ => []
  | .lineString ls => [ls]
  | .multiLineString mls => mls
  | .polygon ext ints => ext :: ints
  | .multiPolygon mp => mp.flatMap fun p => p.1 :: p.2
  | .collection gc => extractLinesList gc

/-- The recursion of `extract_lines` through a geometry collection. -/
def extractLinesList : List Geometry → List (List Pt)
  | [] => []
  | g :: gs => extractLines g ++ extractLinesList gs

end

/-- The configuration fields of `Polygonizer`. -/
structure PolygonizerConfig where
  checkValidRings : Bool
  nodeInput : Bool
deriving DecidableEq, Repr

/-- `Polygonizer::new()`: the default configuration. -/
def polygonizerNew : PolygonizerConfig := ⟨true, false⟩

/-- The line-string comparator of `build_graph`'s pre-noding dedup: by the
first coordinate (x, then y), with the `Coord{0,0}` fallback for an empty
line string. -/
def lineFirstLE (a b : List Pt) : Bool :=
  let pa := a.headD ⟨0, 0⟩
  let pb := b.headD ⟨0, 0⟩
  pa.x < pb.x || (pa.x = pb.x && pa.y ≤ pb.y)

/-- `build_graph`: flatten the inputs, optionally dedup and node them, and
bulk-load the segments; it never constructs an error. -/
def buildGraphSegments (cfg : PolygonizerConfig) (inputs : List Geometry) :
    Except PolygonizerError (List Seg) :=
  let lines := inputs.flatMap extractLines
  if cfg.nodeInput then
    let lines := dedupBy (fun a b => a = b) (stableSort lineFirstLE lines)
    .ok (nodeLines lines)
  else
    .ok (lines.flatMap segsOfLine)

/-- `polygonize()`: build the graph, sort the adjacency lists, prune dangles,
extract rings, and assemble the output polygons.  `z` abstracts the Morton
code of `bulk_load` and `contains` the `geo` containment collaborator. -/
def polygonize (z : Pt → Nat) (contains : List Pt → List Pt → Bool)
    (cfg : PolygonizerConfig) (inputs : List Geometry) :
    Except PolygonizerError (List Poly) := do
  let segs ← buildGraphSegments cfg inputs
  let g := bulkLoad z segs
  let g := sortEdges g
  let g := (pruneDangles g).1
  let rings := getEdgeRings g
  return assemblePolygons contains rings

/-! ## General lemmas -/

theorem shoelace_append_single (l : List Pt) (a : Pt) :
    shoelace (l ++ [a]) = shoelace l +
      (match l.getLast? with
       | some q => q.x * a.y - a.x * q.y
       | none => 0) := by
  induction l with
  | nil => simp [shoelace]
  | cons p t ih =>
    cases t with
    | nil => simp [shoelace]
    | cons q t2 =>
      have ih2 := ih
      simp only [List.cons_append, List.append_eq, shoelace] at ih2 ⊢
      rw [ih2]
      have : (q :: t2).getLast? = (p :: q :: t2).getLast? := by
        simp [List.getLast?]
      rw [this]
      rw [add_assoc]

theorem shoelace_reverse (l : List Pt) : shoelace l.reverse = - shoelace l := by
  induction l with
  | nil => simp [shoelace]
  | cons p t ih =>
    rw [List.reverse_cons, shoelace_append_single, ih]
    have hlast : t.reverse.getLast? = t.head? := by
      cases t with
      | nil => simp
      | cons q t2 => simp [List.getLast?_reverse]
    rw [hlast]
    cases t with
    | nil => simp [shoelace]
    | cons q t2 =>
      simp only [List.head?_cons, shoelace]
      ring_nf

theorem signedArea_reverse (l : List Pt) : signedArea l.reverse = - signedArea l := by
  unfold signedArea
  rw [shoelace_reverse]
  ring

/-! ## C7: polygonize never surfaces an error -/

/-- C7.  The spec says an input that cannot be interpreted as a supported
lineal geometry (e.g. a NaN coordinate) surfaces `InvalidGeometry` and halts
the call.  The code declares that error in `error.rs` but never constructs
it: `build_graph` and `polygonize` return `Ok` on every path, so no input at
all — in particular none with an invalid coordinate — produces an error. -/
theorem polygonize_never_errors (z : Pt → Nat) (contains : List Pt → List Pt → Bool)
    (cfg : PolygonizerConfig) (inputs : List Geometry) :
    ∃ polys, polygonize z contains cfg inputs = .ok polys := by
  unfold polygonize buildGraphSegments
  by_cases h : cfg.nodeInput <;>
    (simp only [h, Bool.false_eq_true, if_true, if_false, Bind.bind, Except.bind]; exact ⟨_, rfl⟩)

/-! ## C8: check_valid_rings is never consulted -/

/-- Helper: `polygonize` does not read `checkValidRings` — its result is the
same function of the other configuration field. -/
theorem polygonize_checkValidRings_irrelevant (z : Pt → Nat)
    (contains : List Pt → List Pt → Bool) (b1 b2 ni : Bool) (inputs : List Geometry) :
    polygonize z contains ⟨b1, ni⟩ inputs = polygonize z contains ⟨b2, ni⟩ inputs := rfl

/-- The claim that the `check_valid_rings` option controls the output of
`polygonize`: some run distinguishes the two settings. -/
def checkValidRingsControls : Prop :=
  ∃ z contains ni inputs,
    polygonize z contains ⟨true, ni⟩ inputs ≠ polygonize z contains ⟨false, ni⟩ inputs

/-- C8 counterexample.  No run of `polygonize` distinguishes
`check_valid_rings = true` from `check_valid_rings = false`: the field is
never read, so it does not control any discarding. -/
theorem checkValidRings_controls_nothing : checkValidRingsControls ↔ False := by
  constructor
  · rintro ⟨z, contains, ni, inputs, hne⟩
    exact hne (polygonize_checkValidRings_irrelevant z contains true false ni inputs)
  · intro h
    exact h.elim

/-- C8 amended.  `check_valid_rings` defaults to `true` but `polygonize`
never consults it: the output is identical under both settings, and no
simplicity-based discarding of rings is performed. -/
theorem checkValidRings_default_and_unused :
    polygonizerNew.checkValidRings = true ∧
    ∀ (z : Pt → Nat) (contains : List Pt → List Pt → Bool) (ni : Bool)
      (inputs : List Geometry),
      polygonize z contains ⟨true, ni⟩ inputs = polygonize z contains ⟨false, ni⟩ inputs :=
  ⟨rfl, fun z contains ni inputs =>
    polygonize_checkValidRings_irrelevant z contains true false ni inputs⟩

/-! ## C6: output orientation -/

theorem classifyRings_foldl_spec (rings : List (List Pt)) :
    ∀ init : List (List Pt) × List (List Pt),
      (∀ s ∈ init.1, 0 < signedArea s) → (∀ h ∈ init.2, signedArea h < 0) →
      (∀ s ∈ (rings.foldl classifyStep init).1, 0 < signedArea s) ∧
      (∀ h ∈ (rings.foldl classifyStep init).2, signedArea h < 0) := by
  induction rings with
  | nil => exact fun init h1 h2 => ⟨h1, h2⟩
  | cons ring rest ih =>
    intro init h1 h2
    simp only [List.foldl_cons]
    have hstep : (∀ s ∈ (classifyStep init ring).1, 0 < signedArea s) ∧
        (∀ h ∈ (classifyStep init ring).2, signedArea h < 0) := by
      unfold classifyStep
      by_cases hdeg : rabs (signedArea ring) < em9
      · simpa [hdeg] using ⟨h1, h2⟩
      · by_cases hpos : signedArea ring > 0
        · simp only [hdeg, hpos, if_true, if_false]
          refine ⟨?_, h2⟩
          intro s hs
          rcases List.mem_append.mp hs with hs | hs
          · exact h1 s hs
          · simp only [List.mem_singleton] at hs
            exact hs ▸ hpos
        · simp only [hdeg, hpos, if_false]
          refine ⟨h1, ?_⟩
          intro h hh
          rcases List.mem_append.mp hh with hh | hh
          · exact h2 h hh
          · simp only [List.mem_singleton] at hh
            subst hh
            have habs : em9 ≤ rabs (signedArea h) := le_of_not_lt hdeg
            have hnp : signedArea h ≤ 0 := le_of_not_lt hpos
            have hpos9 : (0 : Rat) < em9 := by norm_num [em9]
            rw [rabs_eq_abs] at habs
            have : abs (signedArea h) = - signedArea h := abs_of_nonpos hnp
            linarith
    exact ih (classifyStep init ring) hstep.1 hstep.2

theorem classifyRings_shells_pos (rings : List (List Pt)) :
    ∀ s ∈ (classifyRings rings).1, 0 < signedArea s :=
  (classifyRings_foldl_spec rings ([], []) (by simp) (by simp)).1

theorem classifyRings_holes_neg (rings : List (List Pt)) :
    ∀ h ∈ (classifyRings rings).2, signedArea h < 0 :=
  (classifyRings_foldl_spec rings ([], []) (by simp) (by simp)).2

theorem processHoles_eq_makeCCW {shells : List (List Pt)} {hole r : List Pt}
    (h : processHoles shells hole = some r) : r = makeCCWWinding hole := by
  unfold processHoles at h
  dsimp only at h
  split at h
  · exact (Option.some_inj.mp h).symm
  · exact absurd h (by simp)

theorem makeCCW_pos_of_neg {hole : List Pt} (h : signedArea hole < 0) :
    0 < signedArea (makeCCWWinding hole) := by
  unfold makeCCWWinding
  rw [if_pos h, signedArea_reverse]
  linarith

theorem processHoleAssignment_ring {contains : List Pt → List Pt → Bool}
    {shells : List (List Pt)} {hole : List Pt} {i : Nat} {r : List Pt}
    (h : processHoleAssignment contains shells hole = some (i, r)) : r = hole := by
  unfold processHoleAssignment at h
  rcases Option.map_eq_some'.mp h with ⟨b, _, hb⟩
  exact (Prod.mk.injEq _ _ _ _ ▸ hb).2.symm

theorem getD_mem_or_nil {α : Type} (l : List (List α)) (i : Nat) :
    l.getD i [] ∈ l ∨ l.getD i [] = ([] : List α) := by
  rcases Nat.lt_or_ge i l.length with hi | hi
  · left
    rw [List.getD_eq_getElem l [] hi]
    exact List.getElem_mem hi
  · right
    exact List.getD_eq_default l [] hi

theorem shellHoles_members {P : List Pt → Prop} :
    ∀ (l : List (Nat × List Pt)) (acc : List (List (List Pt))),
      (∀ e ∈ acc, ∀ x ∈ e, P x) → (∀ a ∈ l, P a.2) →
      ∀ e ∈ l.foldl
        (fun (acc : List (List (List Pt))) a => acc.set a.1 (acc.getD a.1 [] ++ [a.2])) acc,
        ∀ x ∈ e, P x := by
  intro l
  induction l with
  | nil => exact fun acc hacc _ e he => hacc e he
  | cons a t ih =>
    intro acc hacc hl e he
    refine ih _ ?_ (fun b hb => hl b (by simp [hb])) e he
    intro e2 he2 x hx
    rcases List.mem_or_eq_of_mem_set he2 with he2 | rfl
    · exact hacc e2 he2 x hx
    · rcases List.mem_append.mp hx with hx | hx
      · rcases getD_mem_or_nil acc a.1 with hg | hg
        · exact hacc _ hg x hx
        · rw [hg] at hx
          simp at hx
      · simp only [List.mem_singleton] at hx
        exact hx ▸ hl a (by simp)

theorem assembleShells2_pos (rings : List (List Pt)) :
    ∀ s ∈ assembleShells2 rings, 0 < signedArea s := by
  intro s hs
  rcases List.mem_append.mp hs with hs | hs
  · exact classifyRings_shells_pos rings s hs
  · rcases List.mem_filterMap.mp hs with ⟨hole, hhole, hsome⟩
    rw [processHoles_eq_makeCCW hsome]
    exact makeCCW_pos_of_neg (classifyRings_holes_neg rings hole hhole)

theorem assembleShellHoles_neg (contains : List Pt → List Pt → Bool)
    (rings : List (List Pt)) :
    ∀ e ∈ assembleShellHoles contains rings, ∀ x ∈ e, signedArea x < 0 := by
  apply shellHoles_members
  · intro e he x hx
    have := List.eq_of_mem_replicate he
    subst this
    simp at hx
  · intro a ha
    rcases List.mem_filterMap.mp ha with ⟨hole, hhole, hsome⟩
    rcases a with ⟨i, r⟩
    rw [processHoleAssignment_ring hsome]
    exact classifyRings_holes_neg rings hole hhole

/-- Orientation of the assembled output, for any ring list: every polygon
has a positively wound (CCW) exterior and negatively wound (CW) interiors. -/
theorem assemblePolygons_oriented (contains : List Pt → List Pt → Bool)
    (rings : List (List Pt)) :
    ∀ p ∈ assemblePolygons contains rings,
      0 < signedArea p.exterior ∧ ∀ r ∈ p.interiors, signedArea r < 0 := by
  intro p hp
  unfold assemblePolygons at hp
  rcases List.mem_filterMap.mp hp with ⟨is, hmem, hsome⟩
  dsimp only at hsome
  split at hsome
  · have hp2 := Option.some_inj.mp hsome
    subst hp2
    rcases is with ⟨i, shell⟩
    obtain ⟨hlen, hidx⟩ := List.mem_enum hmem
    constructor
    · exact assembleShells2_pos rings shell (hidx ▸ List.getElem_mem hlen)
    · intro r hr
      rcases getD_mem_or_nil (assembleShellHoles contains rings) i with hg | hg
      · exact assembleShellHoles_neg contains rings _ hg r hr
      · rw [hg] at hr
        simp at hr
  · simp at hsome

/-! ## Concrete instances -/

/-- A concrete Morton function for the closed instances: the claims hold for
every `z`, and the instances fix the constant function (the `(z, x, y)` sort
then orders nodes by coordinate). -/
def zConst : Pt → Nat := fun _ => 0

/-- A concrete containment collaborator for instances with no nesting. -/
def containsNever : List Pt → List Pt → Bool := fun _ _ => false

/-- Containment of axis-aligned rectangles by bounding boxes: the value the
`geo` containment collaborator takes on the rectangle rings of the instances
below. -/
def rectContains : List Pt → List Pt → Bool := fun s h =>
  let bs := ringBBoxD s
  let bh := ringBBoxD h
  bs.minX ≤ bh.minX && bs.minY ≤ bh.minY && bh.maxX ≤ bs.maxX && bh.maxY ≤ bs.maxY

/-- The spec's triangle seed scenario as input geometries. -/
def triangleInput : List Geometry :=
  [.lineString [⟨0, 0⟩, ⟨10, 0⟩], .lineString [⟨10, 0⟩, ⟨0, 10⟩],
   .lineString [⟨0, 10⟩, ⟨0, 0⟩]]

/-- The triangle's output shell ring. -/
def triRing : List Pt := [⟨0, 0⟩, ⟨10, 0⟩, ⟨0, 10⟩, ⟨0, 0⟩]

-- Equality on `Except` values, used by the closed pipeline instances.
deriving instance DecidableEq for Except

/-! ## C2 and C3: the noder is single-pass and its output can properly cross

The failing input: `S1 = (0,0)-(10,0)`, `S2 = (5,1e-11)-(6,1e-11)` and
`S3 = (5,-3e-11)-(5,-10)`.  No pair of these segments intersects (so the
split-finding pass records nothing), but the vertex-merge phase merges
`S2`'s start `(5,1e-11)` down onto `S3`'s endpoint `(5,-3e-11)`, after which
the moved `S2` properly crosses `S1` at `(5.75, 0)`.  A further pass would
split that crossing (and reach quiescence), but `node_lines` runs its
split-finding pass exactly once. -/

/-- `1e-11` and `3e-11`, the small offsets of the failing input. -/
def tinyA : Rat := 1 / 100000000000

/-- The offset of the third segment's upper endpoint. -/
def tinyB : Rat := 3 / 100000000000

/-- The failing input of C2 and C3. -/
def noderInput0 : List (List Pt) :=
  [[⟨0, 0⟩, ⟨10, 0⟩], [⟨5, tinyA⟩, ⟨6, tinyA⟩], [⟨5, -tinyB⟩, ⟨5, -10⟩]]

/-- The spec's noding contract for one pair, modelled from its words: two
output segments are equal, or disjoint, or touch only at shared endpoints
(their single common point is an endpoint of both). -/
def specNodedPairOK (s t : Seg) : Bool :=
  s = t ||
  match lineIntersection s t with
  | none => true
  | some (.single p) => (p = s.start || p = s.stop) && (p = t.start || p = t.stop)
  | some (.collinear _) => false

/-- The spec's noding contract over a whole segment list. -/
def specNodedOK (l : List Seg) : Bool := l.all fun s => l.all fun t => specNodedPairOK s t

/-- View output segments as two-point line strings, as a further noding pass
would receive them. -/
def segsToLines (segs : List Seg) : List (List Pt) :=
  segs.map fun s => [s.start, s.stop]

/-- C2.  The noding contract fails on the code: on the failing input the
output of `node_lines` contains the segments `(0,0)-(10,0)` and
`(5,-3e-11)-(6,1e-11)`, which properly cross at `(5.75, 0)` — they are
distinct, not disjoint, and their common point is an endpoint of neither.
The vertex-merge phase moved an endpoint across another segment after the
single split pass had already run. -/
theorem noding_contract_violated :
    specNodedOK (nodeLines noderInput0) = false ∧
    Seg.mk ⟨0, 0⟩ ⟨10, 0⟩ ∈ nodeLines noderInput0 ∧
    Seg.mk ⟨5, -tinyB⟩ ⟨6, tinyA⟩ ∈ nodeLines noderInput0 ∧
    specNodedPairOK (Seg.mk ⟨0, 0⟩ ⟨10, 0⟩) (Seg.mk ⟨5, -tinyB⟩ ⟨6, tinyA⟩) = false := by
  decide

/-- C3.  The noder used by `polygonize` does not iterate: on the failing
input its output still contains recordable split events (so an iteration
that stops only when no split points were recorded would have continued),
while a single further pass over that output reaches quiescence — so the
iteration limit is not the reason it stopped. -/
theorem noding_not_iterated :
    (collectEvents (nodeLines noderInput0)).isEmpty = false ∧
    (collectEvents (nodeLines (segsToLines (nodeLines noderInput0)))).isEmpty = true := by
  decide

/-! ## C4: sort_edges breaks no ties with the orient predicate -/

/-- Two collinear outgoing edges from the origin: to `(2,2)` (inserted
first) and to `(1,1)`. -/
def tieSegs : List Seg := [⟨⟨0, 0⟩, ⟨2, 2⟩⟩, ⟨⟨0, 0⟩, ⟨1, 1⟩⟩]

/-- C4 counterexample.  At the origin node the two outgoing half-edges point
to `(2,2)` (edge 0) and `(1,1)` (edge 2) in the same direction; their
precomputed angles compare equal and `sort_edges` leaves them in insertion
order `[0, 2]` — but the robust comparator `compare_angular` orders the
target `(1,1)` strictly before `(2,2)` (`Ordering.gt` below), so the emitted
order is not the robust order: no orient tie-break is applied. -/
theorem sortEdges_no_orient_tiebreak :
    (sortEdges (bulkLoad zConst tieSegs)).nodesOutgoing.getD 0 [] = [0, 2] ∧
    ((bulkLoad zConst tieSegs).directedEdges.getD 0 default).dst = 2 ∧
    ((bulkLoad zConst tieSegs).directedEdges.getD 2 default).dst = 1 ∧
    (bulkLoad zConst tieSegs).nodesX.getD 2 0 = 2 ∧
    (bulkLoad zConst tieSegs).nodesX.getD 1 0 = 1 ∧
    compareAngular ⟨0, 0⟩ ⟨2, 2⟩ ⟨1, 1⟩ = Ordering.gt := by
  decide

/-! ## C6: output orientation, pipeline level -/

/-- C6.  Every polygon `polygonize` returns has one exterior ring wound
counter-clockwise (positive signed area) and interior rings wound clockwise
(negative signed area): classified shells have positive area, promoted
shells are reversed to positive area, and assigned holes are the
negative-area rings themselves. -/
theorem polygonize_output_oriented (z : Pt → Nat) (contains : List Pt → List Pt → Bool)
    (cfg : PolygonizerConfig) (inputs : List Geometry) (polys : List Poly)
    (h : polygonize z contains cfg inputs = .ok polys) :
    ∀ p ∈ polys, 0 < signedArea p.exterior ∧ ∀ r ∈ p.interiors, signedArea r < 0 := by
  rcases cfg with ⟨cvr, ni⟩
  unfold polygonize buildGraphSegments at h
  cases ni <;>
    simp only [Bool.false_eq_true, if_true, if_false, Bind.bind, Except.bind,
      pure, Except.pure, Except.ok.injEq] at h <;>
    exact h ▸ assemblePolygons_oriented contains _

/-- C6 witness: the triangle run returns one polygon, whose exterior ring has
positive signed area and which has no interiors. -/
theorem polygonize_output_oriented_witness :
    0 < signedArea triRing ∧ ∀ r ∈ ([] : List (List Pt)), signedArea r < 0 :=
  polygonize_output_oriented zConst containsNever polygonizerNew triangleInput
    [⟨triRing, []⟩] (by decide) ⟨triRing, []⟩ (by decide)

/-! ## C1: hole assignment selects the smallest sufficiently larger shell -/

/-- A candidate qualifies when it contains the hole and its area exceeds the
hole's by more than `1e-6` — the exact test of `process_hole_assignment`. -/
def Quali (contains : List Pt → List Pt → Bool) (hole : List Pt)
    (is : Nat × List Pt) : Prop :=
  contains is.2 hole = true ∧ unsignedArea is.2 > unsignedArea hole + em6

instance (contains : List Pt → List Pt → Bool) (hole : List Pt) (is : Nat × List Pt) :
    Decidable (Quali contains hole is) := by
  unfold Quali
  infer_instance

theorem assignStep_none {contains : List Pt → List Pt → Bool} {hole : List Pt}
    {b : Option (Nat × Rat)} {is : Nat × List Pt}
    (h : assignStep contains hole b is = none) :
    b = none ∧ ¬ Quali contains hole is := by
  unfold assignStep at h
  by_cases hc : contains is.2 hole = true
  · simp only [hc, if_true] at h
    split at h
    · exact absurd h (by simp)
    · rename_i hcond
      refine ⟨h, ?_⟩
      intro ⟨_, harea⟩
      rw [h] at hcond
      simp [harea] at hcond
  · simp only [hc] at h
    exact ⟨by simpa using h, fun hq => hc hq.1⟩

theorem assignFold_none (contains : List Pt → List Pt → Bool) (hole : List Pt) :
    ∀ (cands : List (Nat × List Pt)) (b : Option (Nat × Rat)),
      cands.foldl (assignStep contains hole) b = none →
      b = none ∧ ∀ is ∈ cands, ¬ Quali contains hole is := by
  intro cands
  induction cands with
  | nil => exact fun b h => ⟨h, by simp⟩
  | cons is0 rest ih =>
    intro b h
    simp only [List.foldl_cons] at h
    obtain ⟨hstep, hrest⟩ := ih (assignStep contains hole b is0) h
    obtain ⟨hb, hq0⟩ := assignStep_none hstep
    exact ⟨hb, fun is his => by
      rcases List.mem_cons.mp his with rfl | his
      · exact hq0
      · exact hrest is his⟩

theorem assignStep_cases (contains : List Pt → List Pt → Bool) (hole : List Pt)
    (b : Option (Nat × Rat)) (i0 : Nat) (s0 : List Pt) :
    (assignStep contains hole b (i0, s0) = b ∧
      (¬ Quali contains hole (i0, s0) ∨
        ∃ j c, b = some (j, c) ∧ c ≤ unsignedArea s0)) ∨
    (assignStep contains hole b (i0, s0) = some (i0, unsignedArea s0) ∧
      Quali contains hole (i0, s0) ∧
      ∀ j c, b = some (j, c) → unsignedArea s0 < c) := by
  unfold assignStep
  by_cases hc : contains s0 hole = true
  · rcases b with _ | ⟨j, c⟩
    · by_cases harea : unsignedArea s0 > unsignedArea hole + em6
      · right
        refine ⟨?_, ⟨hc, harea⟩, by simp⟩
        simp [hc, harea]
      · left
        refine ⟨by simp [hc, harea], Or.inl ?_⟩
        intro hq
        exact harea hq.2
    · by_cases harea : unsignedArea s0 > unsignedArea hole + em6
      · by_cases hlt : unsignedArea s0 < c
        · right
          refine ⟨by simp [hc, harea, hlt], ⟨hc, harea⟩, ?_⟩
          intro j2 c2 hj
          injection hj with hj
          rw [← (Prod.mk.injEq _ _ _ _ ▸ hj : j = j2 ∧ c = c2).2]
          exact hlt
        · left
          exact ⟨by simp [hc, harea, hlt], Or.inr ⟨j, c, rfl, le_of_not_lt hlt⟩⟩
      · left
        refine ⟨by simp [hc, harea], Or.inl ?_⟩
        intro hq
        exact harea hq.2
  · left
    exact ⟨by simp [hc], Or.inl fun hq => hc hq.1⟩

theorem assignFold_some (contains : List Pt → List Pt → Bool) (hole : List Pt) :
    ∀ (cands : List (Nat × List Pt)) (b : Option (Nat × Rat)) (i : Nat) (a : Rat),
      cands.foldl (assignStep contains hole) b = some (i, a) →
      (b = some (i, a) ∨
        ∃ s, (i, s) ∈ cands ∧ Quali contains hole (i, s) ∧ a = unsignedArea s) ∧
      (∀ is ∈ cands, Quali contains hole is → a ≤ unsignedArea is.2) ∧
      (∀ j c, b = some (j, c) → a ≤ c) := by
  intro cands
  induction cands with
  | nil =>
    intro b i a h
    simp only [List.foldl_nil] at h
    refine ⟨Or.inl h, by simp, ?_⟩
    intro j c hb
    rw [hb] at h
    injection h with h
    rw [(Prod.mk.injEq _ _ _ _ ▸ h : j = i ∧ c = a).2]
  | cons is0 rest ih =>
    rcases is0 with ⟨i0, s0⟩
    intro b i a h
    simp only [List.foldl_cons] at h
    obtain ⟨horig, hmin, hbound⟩ := ih (assignStep contains hole b (i0, s0)) i a h
    rcases assignStep_cases contains hole b i0 s0 with ⟨heq, hwhy⟩ | ⟨heq, hq0, hlt⟩
    · rw [heq] at horig hbound
      refine ⟨?_, ?_, hbound⟩
      · rcases horig with hb | ⟨s, hs, hq, ha⟩
        · exact Or.inl hb
        · exact Or.inr ⟨s, List.mem_cons_of_mem _ hs, hq, ha⟩
      · intro is his hqis
        rcases List.mem_cons.mp his with rfl | his
        · rcases hwhy with hnq | ⟨j, c, hb, hca⟩
          · exact absurd hqis hnq
          · exact le_trans (hbound j c hb) hca
        · exact hmin is his hqis
    · rw [heq] at horig hbound
      have hale : a ≤ unsignedArea s0 := hbound i0 (unsignedArea s0) rfl
      refine ⟨?_, ?_, ?_⟩
      · rcases horig with hb | ⟨s, hs, hq, ha⟩
        · injection hb with hb
          obtain ⟨hi, ha⟩ := Prod.mk.injEq _ _ _ _ ▸ hb
          exact Or.inr ⟨s0, by rw [← hi]; exact List.mem_cons_self _ _, by
            rw [← hi]; exact hq0, ha.symm⟩
        · exact Or.inr ⟨s, List.mem_cons_of_mem _ hs, hq, ha⟩
      · intro is his hqis
        rcases List.mem_cons.mp his with rfl | his
        · exact hale
        · exact hmin is his hqis
      · intro j c hb
        exact le_of_lt (lt_of_le_of_lt hale (hlt j c hb))

/-- C1 (amended).  `process_hole_assignment` assigns each hole to at most one
shell, namely (when one exists) a bounding-box candidate that contains the
hole AND whose area exceeds the hole's area by more than `1e-6`, of minimal
area among all such candidates; a hole with no such candidate is discarded.
(The claim's tolerance-free "area strictly greater" is not what the code
tests — see the counterexample.) -/
theorem processHoleAssignment_minimal (contains : List Pt → List Pt → Bool)
    (shells : List (List Pt)) (hole : List Pt) :
    match processHoleAssignment contains shells hole with
    | none => ∀ is ∈ holeCandidates shells hole, ¬ Quali contains hole is
    | some (idx, ring) =>
        ring = hole ∧
        ∃ s, (idx, s) ∈ holeCandidates shells hole ∧ Quali contains hole (idx, s) ∧
          ∀ is ∈ holeCandidates shells hole, Quali contains hole is →
            unsignedArea s ≤ unsignedArea is.2 := by
  unfold processHoleAssignment
  rcases hfold : (holeCandidates shells hole).foldl (assignStep contains hole) none
    with _ | ⟨i, a⟩
  · simp only [hfold, Option.map_none']
    exact (assignFold_none contains hole _ none hfold).2
  · simp only [hfold, Option.map_some']
    obtain ⟨horig, hmin, _⟩ := assignFold_some contains hole _ none i a hfold
    rcases horig with habs | ⟨s, hmem, hq, ha⟩
    · exact absurd habs (by simp)
    · exact ⟨by trivial, s, hmem, hq, fun is his hqis => ha ▸ hmin is his hqis⟩

/-- The shell rectangle of the C1 counterexample: width 1/2, height
1/2 + 2e-6, area exactly 1/4 + 1e-6 (counter-clockwise). -/
def cShell : List Pt :=
  [⟨1/4, 1/4⟩, ⟨3/4, 1/4⟩, ⟨3/4, 3/4 + 2 * em6⟩, ⟨1/4, 3/4 + 2 * em6⟩, ⟨1/4, 1/4⟩]

/-- The hole rectangle of the C1 counterexample: the unit-half square, area
1/4 (clockwise, as hole rings are). -/
def cHole : List Pt :=
  [⟨1/4, 1/4⟩, ⟨1/4, 3/4⟩, ⟨3/4, 3/4⟩, ⟨3/4, 1/4⟩, ⟨1/4, 1/4⟩]

/-- C1 counterexample.  The shell contains the hole and its area is strictly
greater than the hole's (by exactly `1e-6`), so under the claim the hole is
assigned to it — but `process_hole_assignment` requires the area to exceed
the hole's by MORE than `1e-6` and discards the hole (`none`). -/
theorem hole_with_containing_shell_discarded :
    processHoleAssignment rectContains [cShell] cHole = none ∧
    rectContains cShell cHole = true ∧
    unsignedArea cHole < unsignedArea cShell := by
  decide

/-! ## C4 (amended): sort_edges orders by the angle alone -/

theorem angClass_zero_iff (u : Pt) : angClass u = 0 ↔ u.y < 0 := by
  unfold angClass
  split_ifs <;> simp_all

theorem angClass_two_pos {u : Pt} (h : angClass u = 2) : 0 < u.y := by
  unfold angClass at h
  split_ifs at h <;> first | assumption | exact absurd h (by decide)

theorem atn2Cmp_not_gt_iff (u v : Pt) :
    atn2Cmp u v ≠ .gt ↔
      (angClass u < angClass v ∨
        (angClass u = angClass v ∧
          ((angClass u = 0 ∨ angClass u = 2) → 0 ≤ crossV u v))) := by
  unfold atn2Cmp
  dsimp only
  split_ifs with h1 h2 h3 h4 h5
  · simp only [ne_eq, reduceCtorEq, not_false_eq_true, true_iff]
    exact Or.inl h1
  · simp only [ne_eq, not_true_eq_false, false_iff, not_or, not_and]
    exact ⟨by omega, fun heq => by omega⟩
  · simp only [ne_eq, reduceCtorEq, not_false_eq_true, true_iff]
    exact Or.inr ⟨by omega, fun _ => le_of_lt h4⟩
  · simp only [ne_eq, not_true_eq_false, false_iff]
    rintro (hlt | ⟨heq, himpl⟩)
    · omega
    · have hcls : angClass u = 0 ∨ angClass u = 2 := by
        simpa using h3
      exact absurd (himpl hcls) (not_le.mpr h5)
  · simp only [ne_eq, reduceCtorEq, not_false_eq_true, true_iff]
    exact Or.inr ⟨by omega, fun _ => le_of_not_lt h5⟩
  · simp only [ne_eq, reduceCtorEq, not_false_eq_true, true_iff]
    refine Or.inr ⟨by omega, ?_⟩
    intro hcase
    exact absurd hcase (by simpa using h3)

theorem crossV_trans_same_sign {u v w : Pt}
    (h : (u.y < 0 ∧ v.y < 0 ∧ w.y < 0) ∨ (0 < u.y ∧ 0 < v.y ∧ 0 < w.y))
    (h1 : 0 ≤ crossV u v) (h2 : 0 ≤ crossV v w) : 0 ≤ crossV u w := by
  have hid : v.y * crossV u w = u.y * crossV v w + w.y * crossV u v := by
    unfold crossV
    ring
  rcases h with ⟨hu, hv, hw⟩ | ⟨hu, hv, hw⟩
  · nlinarith [mul_nonpos_of_nonpos_of_nonneg (le_of_lt hu) h2,
      mul_nonpos_of_nonpos_of_nonneg (le_of_lt hw) h1]
  · nlinarith [mul_nonneg (le_of_lt hu) h2, mul_nonneg (le_of_lt hw) h1]

theorem atn2Cmp_not_gt_total (u v : Pt) : atn2Cmp u v ≠ .gt ∨ atn2Cmp v u ≠ .gt := by
  rw [atn2Cmp_not_gt_iff, atn2Cmp_not_gt_iff]
  by_cases hcl : angClass u = angClass v
  · by_cases hcr : 0 ≤ crossV u v
    · exact Or.inl (Or.inr ⟨hcl, fun _ => hcr⟩)
    · refine Or.inr (Or.inr ⟨hcl.symm, fun _ => ?_⟩)
      have : crossV v u = - crossV u v := by unfold crossV; ring
      linarith [lt_of_not_le hcr]
  · rcases Nat.lt_or_ge (angClass u) (angClass v) with hlt | hge
    · exact Or.inl (Or.inl hlt)
    · exact Or.inr (Or.inl (by omega))

theorem atn2Cmp_not_gt_trans {u v w : Pt}
    (h1 : atn2Cmp u v ≠ .gt) (h2 : atn2Cmp v w ≠ .gt) : atn2Cmp u w ≠ .gt := by
  rw [atn2Cmp_not_gt_iff] at h1 h2 ⊢
  rcases h1 with hlt1 | ⟨heq1, hcr1⟩
  · rcases h2 with hlt2 | ⟨heq2, _⟩
    · exact Or.inl (by omega)
    · exact Or.inl (by omega)
  · rcases h2 with hlt2 | ⟨heq2, hcr2⟩
    · exact Or.inl (by omega)
    · refine Or.inr ⟨by omega, ?_⟩
      intro hcase
      have hclv : angClass v = angClass u := heq1.symm
      have hclw : angClass w = angClass u := by omega
      have hsign : (u.y < 0 ∧ v.y < 0 ∧ w.y < 0) ∨ (0 < u.y ∧ 0 < v.y ∧ 0 < w.y) := by
        rcases hcase with hc | hc
        · left
          exact ⟨(angClass_zero_iff u).mp hc,
            (angClass_zero_iff v).mp (by omega),
            (angClass_zero_iff w).mp (by omega)⟩
        · right
          exact ⟨angClass_two_pos hc, angClass_two_pos (by omega),
            angClass_two_pos (by omega)⟩
      exact crossV_trans_same_sign hsign
        (hcr1 (by omega)) (hcr2 (by omega))

theorem getD_map_nil {α β : Type} (f : List α → List β) (l : List (List α)) (i : Nat)
    (hf : f [] = []) : (l.map f).getD i [] = f (l.getD i []) := by
  rcases Nat.lt_or_ge i l.length with hi | hi
  · rw [List.getD_eq_getElem _ _ (by simpa using hi), List.getD_eq_getElem _ _ hi]
    simp
  · rw [List.getD_eq_default _ _ (by simpa using hi), List.getD_eq_default _ _ hi, hf]

/-- C4 (amended).  `sort_edges` stable-sorts every outgoing list by the
precomputed angle comparator alone — the result is a permutation of the
original list that is pairwise non-descending in the exact angle order, ties
(equal angles) being left in insertion order; the robust `compare_angular`
(defined in `utils/mod.rs` with the `orient2d` tie break) is not consulted,
so collinear ties are not broken by the orient predicate (see the
counterexample). -/
theorem sortEdges_angle_only (g : PlanarGraph) (i : Nat) :
    List.Pairwise (fun a b => sortEdgesCmp g a b ≠ .gt)
      ((sortEdges g).nodesOutgoing.getD i []) ∧
    List.Perm ((sortEdges g).nodesOutgoing.getD i []) (g.nodesOutgoing.getD i []) := by
  have hmap : (sortEdges g).nodesOutgoing =
      g.nodesOutgoing.map fun adj => stableSort (fun a b => sortEdgesCmp g a b ≠ .gt) adj := rfl
  rw [hmap, getD_map_nil _ _ _ rfl]
  unfold stableSort
  set r : Nat → Nat → Prop :=
    fun a b => (decide (sortEdgesCmp g a b ≠ Ordering.gt)) = true with hr
  haveI : IsTotal Nat r := ⟨by
    intro a b
    simp only [hr, decide_eq_true_eq]
    exact atn2Cmp_not_gt_total _ _⟩
  haveI : IsTrans Nat r := ⟨by
    intro a b c
    simp only [hr, decide_eq_true_eq]
    exact atn2Cmp_not_gt_trans⟩
  constructor
  · have hs := List.sorted_insertionSort r (g.nodesOutgoing.getD i [])
    unfold List.Sorted at hs
    exact hs.imp fun hab => by simpa [hr] using hab
  · exact List.perm_insertionSort r _

/-! ## C5 and C10: ring extraction

The partition and closure theorems rest on a well-formedness record that
`bulk_load` establishes and `sort_edges` / `prune_dangles` preserve: half
edges pair up through `sym`, each half edge sits in exactly the outgoing
list of its source node, and every node's degree counts its live outgoing
edges. -/

/-- Number of half-edges. -/
def numDE (g : PlanarGraph) : Nat := g.directedEdges.length

/-- Half-edge record access with the arena default. -/
def deD (g : PlanarGraph) (e : Nat) : DirEdge := g.directedEdges.getD e default

/-- The reverse half edge. -/
def symOf (g : PlanarGraph) (e : Nat) : Nat := (deD g e).symIdx

/-- Source node of a half edge. -/
def srcOf (g : PlanarGraph) (e : Nat) : Nat := (deD g e).src

/-- Destination node of a half edge. -/
def dstOf (g : PlanarGraph) (e : Nat) : Nat := (deD g e).dst

/-- Removal flag of a half edge. -/
def markedOf (g : PlanarGraph) (e : Nat) : Bool := (deD g e).isMarked

/-- A live half edge: in range and not marked removed. -/
def liveDE (g : PlanarGraph) (e : Nat) : Prop := e < numDE g ∧ markedOf g e = false

/-- Outgoing list of a node. -/
def outD (g : PlanarGraph) (i : Nat) : List Nat := g.nodesOutgoing.getD i []

/-- Degree of a node. -/
def degD (g : PlanarGraph) (i : Nat) : Nat := g.nodesDegree.getD i 0

/-- The live outgoing edges of a node (the `valid_edges` of
`get_edge_rings`). -/
def validList (g : PlanarGraph) (i : Nat) : List Nat :=
  (outD g i).filter fun e => markedOf g e = false

/-- Well-formedness of the half-edge arena, as `bulk_load` builds it and the
later stages preserve it. -/
structure RingWF (g : PlanarGraph) : Prop where
  sym_lt : ∀ e, e < numDE g → symOf g e < numDE g
  sym_invol : ∀ e, e < numDE g → symOf g (symOf g e) = e
  sym_src : ∀ e, e < numDE g → srcOf g (symOf g e) = dstOf g e
  sym_marked : ∀ e, e < numDE g → markedOf g (symOf g e) = markedOf g e
  src_ne_dst : ∀ e, e < numDE g → srcOf g e ≠ dstOf g e
  out_src : ∀ i, ∀ e ∈ outD g i, e < numDE g ∧ srcOf g e = i
  mem_out : ∀ e, e < numDE g → e ∈ outD g (srcOf g e)
  out_nodup : ∀ i, (outD g i).Nodup
  deg_eq : ∀ i, degD g i = (validList g i).length

theorem RingWF.live_sym {g : PlanarGraph} (w : RingWF g) {e : Nat} (he : liveDE g e) :
    liveDE g (symOf g e) :=
  ⟨w.sym_lt e he.1, (w.sym_marked e he.1).trans he.2⟩

theorem RingWF.mem_valid {g : PlanarGraph} (w : RingWF g) {e : Nat} (he : liveDE g e) :
    e ∈ validList g (srcOf g e) :=
  List.mem_filter.mpr ⟨w.mem_out e he.1, by simpa using he.2⟩

theorem RingWF.valid_src {g : PlanarGraph} (w : RingWF g) {i e : Nat}
    (he : e ∈ validList g i) : liveDE g e ∧ srcOf g e = i := by
  obtain ⟨hout, hm⟩ := List.mem_filter.mp he
  obtain ⟨hlt, hsrc⟩ := w.out_src i e hout
  exact ⟨⟨hlt, by simpa using hm⟩, hsrc⟩

theorem RingWF.valid_nodup {g : PlanarGraph} (w : RingWF g) (i : Nat) :
    (validList g i).Nodup :=
  (w.out_nodup i).filter _

/-- Sequential assignment of `some` values into an option array. -/
def applySets (l : List (Nat × Nat)) (base : List (Option Nat)) : List (Option Nat) :=
  l.foldl (fun nx p => nx.set p.1 (some p.2)) base

theorem applySets_nil (base : List (Option Nat)) : applySets [] base = base := rfl

theorem applySets_cons (p : Nat × Nat) (l : List (Nat × Nat)) (base : List (Option Nat)) :
    applySets (p :: l) base = applySets l (base.set p.1 (some p.2)) := rfl

theorem applySets_append (l1 l2 : List (Nat × Nat)) (base : List (Option Nat)) :
    applySets (l1 ++ l2) base = applySets l2 (applySets l1 base) :=
  List.foldl_append ..

theorem applySets_length (l : List (Nat × Nat)) (base : List (Option Nat)) :
    (applySets l base).length = base.length := by
  induction l generalizing base with
  | nil => rfl
  | cons p t ih => rw [applySets_cons, ih, List.length_set]

theorem applySets_getD_notMem (l : List (Nat × Nat)) (base : List (Option Nat)) (e : Nat)
    (h : ∀ p ∈ l, p.1 ≠ e) : (applySets l base).getD e none = base.getD e none := by
  induction l generalizing base with
  | nil => rfl
  | cons p t ih =>
    rw [applySets_cons, ih _ fun q hq => h q (List.mem_cons_of_mem _ hq)]
    rcases Nat.lt_or_ge e base.length with he | he
    · rw [List.getD_eq_getElem _ _ he,
        List.getD_eq_getElem _ _ (by simpa using he),
        List.getElem_set_ne (h p (List.mem_cons_self _ _))]
    · rw [List.getD_eq_default _ _ he, List.getD_eq_default _ _ (by simpa using he)]

theorem applySets_getD_mem (l : List (Nat × Nat)) (base : List (Option Nat)) (i v : Nat)
    (hmem : (i, v) ∈ l) (hnodup : (l.map Prod.fst).Nodup) (hlt : i < base.length) :
    (applySets l base).getD i none = some v := by
  induction l generalizing base with
  | nil => simp at hmem
  | cons p t ih =>
    rw [List.map_cons, List.nodup_cons] at hnodup
    rw [applySets_cons]
    rcases List.mem_cons.mp hmem with heq | hmem2
    · cases heq
      rw [applySets_getD_notMem]
      · have hlen : i < (base.set i (some v)).length := by simpa using hlt
        rw [List.getD_eq_getElem _ _ hlen, List.getElem_set_self]
      · intro q hq hqe
        have hq1 : q.1 ∈ t.map Prod.fst := List.mem_map_of_mem Prod.fst hq
        rw [hqe] at hq1
        exact hnodup.1 hq1
    · exact ih _ hmem2 hnodup.2 (by simpa using hlt)

/-- The update pairs one node contributes to the next-CCW array: each live
outgoing edge mapped to its cyclic successor. -/
def nodePairs (g : PlanarGraph) (i : Nat) : List (Nat × Nat) :=
  if degD g i = 0 then []
  else if (validList g i).isEmpty then []
  else (List.range (validList g i).length).map fun k =>
    ((validList g i).getD k 0,
      (validList g i).getD ((k + 1) % (validList g i).length) 0)

theorem nodeStep_eq (g : PlanarGraph) (next : List (Option Nat)) (i : Nat) :
    (if g.nodesDegree.getD i 0 = 0 then next
     else
       let valid := (g.nodesOutgoing.getD i []).filter
         fun idx => (g.directedEdges.getD idx default).isMarked = false
       if valid.isEmpty then next
       else
         (List.range valid.length).foldl
           (fun nx k => nx.set (valid.getD k 0) (some (valid.getD ((k + 1) % valid.length) 0)))
           next) = applySets (nodePairs g i) next := by
  simp only [nodePairs, validList, outD, markedOf, deD, degD]
  split_ifs with h1 h2
  · rfl
  · rfl
  · simp only [applySets]
    rw [List.foldl_map]

theorem buildNextPointers_eq (g : PlanarGraph) :
    buildNextPointers g =
      applySets ((List.range g.nodesDegree.length).flatMap (nodePairs g))
        (List.replicate (numDE g) none) := by
  unfold buildNextPointers
  simp only [numDE]
  generalize List.replicate g.directedEdges.length none = base
  generalize List.range g.nodesDegree.length = nodes
  induction nodes generalizing base with
  | nil => rfl
  | cons i rest ih =>
    rw [List.foldl_cons, List.flatMap_cons, applySets_append, ih]
    congr 1
    exact nodeStep_eq g base i

/-- Cyclic successor within a node's live outgoing list: the element after
`e`, wrapping at the end. -/
def cycNext (l : List Nat) (e : Nat) : Nat :=
  l.getD ((l.indexOf e + 1) % l.length) 0

theorem map_getD_range (l : List Nat) :
    (List.range l.length).map (fun k => l.getD k 0) = l := by
  apply List.ext_getElem
  · simp
  · intro n h1 h2
    simp [List.getD_eq_getElem?_getD, List.getElem?_eq_getElem h2]

theorem mem_nodePairs_fst (g : PlanarGraph) {i : Nat} {p : Nat × Nat}
    (hp : p ∈ nodePairs g i) : p.1 ∈ validList g i := by
  unfold nodePairs at hp
  split_ifs at hp with h1 h2
  · simp at hp
  · simp at hp
  · obtain ⟨k, hk, hpe⟩ := List.mem_map.mp hp
    have hklt : k < (validList g i).length := List.mem_range.mp hk
    rw [← hpe]
    show (validList g i).getD k 0 ∈ validList g i
    rw [List.getD_eq_getElem _ _ hklt]
    exact List.getElem_mem _

theorem pair_mem_nodePairs (g : PlanarGraph) (w : RingWF g) (e : Nat) (he : liveDE g e) :
    (e, cycNext (validList g (srcOf g e)) e) ∈ nodePairs g (srcOf g e) := by
  have hmem := w.mem_valid he
  have hlen : 0 < (validList g (srcOf g e)).length :=
    List.length_pos.mpr (List.ne_nil_of_mem hmem)
  have hdeg : degD g (srcOf g e) ≠ 0 := by
    rw [w.deg_eq]
    omega
  have hempty : ¬ (validList g (srcOf g e)).isEmpty := by
    rw [List.isEmpty_iff]
    exact List.ne_nil_of_mem hmem
  unfold nodePairs
  rw [if_neg hdeg, if_neg hempty]
  apply List.mem_map.mpr
  refine ⟨(validList g (srcOf g e)).indexOf e,
    List.mem_range.mpr (List.indexOf_lt_length.mpr hmem), ?_⟩
  have h1 : (validList g (srcOf g e)).getD ((validList g (srcOf g e)).indexOf e) 0 = e := by
    rw [List.getD_eq_getElem _ _ (List.indexOf_lt_length.mpr hmem)]
    exact List.getElem_indexOf _
  rw [h1]
  rfl

theorem src_lt_degLen (g : PlanarGraph) (w : RingWF g) (e : Nat) (he : liveDE g e) :
    srcOf g e < g.nodesDegree.length := by
  by_contra h
  have h0 : degD g (srcOf g e) = 0 := List.getD_eq_default _ _ (Nat.le_of_not_lt h)
  rw [w.deg_eq] at h0
  have hmem := w.mem_valid he
  rw [List.length_eq_zero] at h0
  rw [h0] at hmem
  simp at hmem

theorem flatMap_fst_nodup (g : PlanarGraph) (w : RingWF g) :
    (((List.range g.nodesDegree.length).flatMap (nodePairs g)).map Prod.fst).Nodup := by
  rw [List.map_flatMap]
  apply List.nodup_flatMap.mpr
  constructor
  · intro i _
    unfold nodePairs
    split_ifs with h1 h2
    · simp
    · simp
    · rw [List.map_map]
      have hmr : (List.range (validList g i).length).map
          (Prod.fst ∘ fun k => ((validList g i).getD k 0,
            (validList g i).getD ((k + 1) % (validList g i).length) 0)) =
          validList g i := map_getD_range _
      rw [hmr]
      exact w.valid_nodup i
  · have hpw : (List.range g.nodesDegree.length).Pairwise (· ≠ ·) := List.nodup_range _
    apply hpw.imp
    intro i j hij x hxi hxj
    obtain ⟨p, hp, hpx⟩ := List.mem_map.mp hxi
    obtain ⟨q, hq, hqx⟩ := List.mem_map.mp hxj
    have h1 := (w.valid_src (mem_nodePairs_fst g hp)).2
    have h2 := (w.valid_src (mem_nodePairs_fst g hq)).2
    exact hij (by rw [← h1, ← h2, hpx, hqx])

/-- `build_next_pointers` sends every live half edge to the cyclic successor
of its position in the live outgoing list of its source node. -/
theorem next_live (g : PlanarGraph) (w : RingWF g) (e : Nat) (he : liveDE g e) :
    (buildNextPointers g).getD e none =
      some (cycNext (validList g (srcOf g e)) e) := by
  rw [buildNextPointers_eq]
  apply applySets_getD_mem
  · exact List.mem_flatMap.mpr ⟨srcOf g e,
      List.mem_range.mpr (src_lt_degLen g w e he), pair_mem_nodePairs g w e he⟩
  · exact flatMap_fst_nodup g w
  · simpa using he.1

theorem cycNext_mem (l : List Nat) (e : Nat) (hmem : e ∈ l) : cycNext l e ∈ l := by
  have hlen : 0 < l.length := List.length_pos.mpr (List.ne_nil_of_mem hmem)
  have hlt : (l.indexOf e + 1) % l.length < l.length := Nat.mod_lt _ hlen
  unfold cycNext
  rw [List.getD_eq_getElem _ _ hlt]
  exact List.getElem_mem _

theorem cycNext_inj (l : List Nat) (hnd : l.Nodup) {e1 e2 : Nat}
    (h1 : e1 ∈ l) (h2 : e2 ∈ l) (heq : cycNext l e1 = cycNext l e2) : e1 = e2 := by
  have hlen : 0 < l.length := List.length_pos.mpr (List.ne_nil_of_mem h1)
  have hi1 := List.indexOf_lt_length.mpr h1
  have hi2 := List.indexOf_lt_length.mpr h2
  unfold cycNext at heq
  rw [List.getD_eq_getElem _ _ (Nat.mod_lt _ hlen),
    List.getD_eq_getElem _ _ (Nat.mod_lt _ hlen)] at heq
  have hidx : (l.indexOf e1 + 1) % l.length = (l.indexOf e2 + 1) % l.length :=
    (List.Nodup.getElem_inj_iff hnd).mp heq
  have hie : l.indexOf e1 = l.indexOf e2 := by
    rcases Nat.lt_or_ge (l.indexOf e1 + 1) l.length with ha | ha
    · rcases Nat.lt_or_ge (l.indexOf e2 + 1) l.length with hb | hb
      · rw [Nat.mod_eq_of_lt ha, Nat.mod_eq_of_lt hb] at hidx
        omega
      · have hb' : l.indexOf e2 + 1 = l.length := by omega
        rw [Nat.mod_eq_of_lt ha, hb', Nat.mod_self] at hidx
        omega
    · have ha' : l.indexOf e1 + 1 = l.length := by omega
      rcases Nat.lt_or_ge (l.indexOf e2 + 1) l.length with hb | hb
      · rw [ha', Nat.mod_self, Nat.mod_eq_of_lt hb] at hidx
        omega
      · omega
  rw [← List.getElem_indexOf hi1, ← List.getElem_indexOf hi2]
  simp only [hie]

/-- The traversal step of `get_edge_rings`: from the current half edge to
the edge after its reverse in CCW order at the destination node. -/
def stepv (g : PlanarGraph) (e : Nat) : Nat :=
  cycNext (validList g (srcOf g (symOf g e))) (symOf g e)

theorem next_sym (g : PlanarGraph) (w : RingWF g) {e : Nat} (he : liveDE g e) :
    (buildNextPointers g).getD (symOf g e) none = some (stepv g e) :=
  next_live g w (symOf g e) (w.live_sym he)

theorem stepv_mem (g : PlanarGraph) (w : RingWF g) {e : Nat} (he : liveDE g e) :
    stepv g e ∈ validList g (srcOf g (symOf g e)) :=
  cycNext_mem _ _ (w.mem_valid (w.live_sym he))

theorem stepv_live (g : PlanarGraph) (w : RingWF g) {e : Nat} (he : liveDE g e) :
    liveDE g (stepv g e) :=
  (w.valid_src (stepv_mem g w he)).1

theorem srcOf_stepv (g : PlanarGraph) (w : RingWF g) {e : Nat} (he : liveDE g e) :
    srcOf g (stepv g e) = dstOf g e := by
  rw [(w.valid_src (stepv_mem g w he)).2]
  exact w.sym_src e he.1

theorem stepv_inj (g : PlanarGraph) (w : RingWF g) {e1 e2 : Nat}
    (h1 : liveDE g e1) (h2 : liveDE g e2) (h : stepv g e1 = stepv g e2) : e1 = e2 := by
  have hm1 := stepv_mem g w h1
  have hm2 := stepv_mem g w h2
  have hn : srcOf g (symOf g e1) = srcOf g (symOf g e2) := by
    rw [← (w.valid_src hm1).2, ← (w.valid_src hm2).2, h]
  unfold stepv at h
  rw [hn] at h
  have hs : symOf g e1 = symOf g e2 :=
    cycNext_inj _ (w.valid_nodup _) (hn ▸ w.mem_valid (w.live_sym h1))
      (w.mem_valid (w.live_sym h2)) h
  rw [← w.sym_invol e1 h1.1, ← w.sym_invol e2 h2.1, hs]

theorem stepv_ne_self (g : PlanarGraph) (w : RingWF g) {e : Nat} (he : liveDE g e) :
    stepv g e ≠ e := by
  intro h
  have h1 := srcOf_stepv g w he
  rw [h] at h1
  exact w.src_ne_dst e he.1 h1

theorem updT_self (f : Nat → Bool) (i : Nat) : updT f i i = true := by simp [updT]

theorem updT_eq_true_iff (f : Nat → Bool) (i j : Nat) :
    updT f i j = true ↔ j = i ∨ f j = true := by
  unfold updT
  split_ifs with h <;> simp [h]

/-- Invariant of the inner walk: every visited half edge is live, and is
either the start of the current walk or has a visited step predecessor. -/
def WalkInv (g : PlanarGraph) (start : Nat) (visited : Nat → Bool) : Prop :=
  ∀ x, visited x = true → liveDE g x ∧
    (x = start ∨ ∃ y, visited y = true ∧ stepv g y = x)

/-- Invariant between walks: every visited half edge is live and has a
visited step predecessor (the visited set is a union of step cycles). -/
def ClosedInv (g : PlanarGraph) (visited : Nat → Bool) : Prop :=
  ∀ x, visited x = true → liveDE g x ∧ ∃ y, visited y = true ∧ stepv g y = x

theorem ringWalk_succ_eq (next : List (Option Nat)) (des : List DirEdge)
    (start fuel : Nat) (visited : Nat → Bool) (curr : Nat) (acc : List Nat) :
    ringWalk next des start (fuel + 1) visited curr acc =
      (match next.getD (des.getD curr default).symIdx none with
       | none => (updT visited curr, none)
       | some nxt =>
         if nxt = start then (updT visited curr, some (acc ++ [curr]))
         else if updT visited curr nxt then (updT visited curr, none)
         else ringWalk next des start fuel (updT visited curr) nxt (acc ++ [curr])) := rfl

theorem ringWalk_succ_some (next : List (Option Nat)) (des : List DirEdge)
    (start fuel : Nat) (visited : Nat → Bool) (curr : Nat) (acc : List Nat)
    (nxt : Nat) (h : next.getD (des.getD curr default).symIdx none = some nxt) :
    ringWalk next des start (fuel + 1) visited curr acc =
      (if nxt = start then (updT visited curr, some (acc ++ [curr]))
       else if updT visited curr nxt then (updT visited curr, none)
       else ringWalk next des start fuel (updT visited curr) nxt (acc ++ [curr])) := by
  rw [ringWalk_succ_eq, h]

/-- On a well-formed graph the inner walk of `get_edge_rings`, started on a
live unvisited half edge with enough fuel, always closes a ring; the newly
visited edges are exactly the emitted suffix, which is a step chain back to
the start. -/
theorem ringWalk_spec (g : PlanarGraph) (w : RingWF g) (start : Nat)
    (hstart : liveDE g start) :
    ∀ (fuel : Nat) (visited : Nat → Bool) (curr : Nat) (acc : List Nat),
      countFalseIn visited (numDE g) < fuel →
      liveDE g curr → visited curr = false →
      (curr = start ∨ ∃ y, visited y = true ∧ stepv g y = curr) →
      WalkInv g start visited →
      ∃ suffix V',
        ringWalk (buildNextPointers g) g.directedEdges start fuel visited curr acc
          = (V', some (acc ++ suffix)) ∧
        suffix.head? = some curr ∧
        (∀ j, V' j = true ↔ (visited j = true ∨ j ∈ suffix)) ∧
        (∀ j ∈ suffix, visited j = false ∧ liveDE g j) ∧
        suffix.Nodup ∧
        ClosedInv g V' ∧
        List.Chain' (fun a b => stepv g a = b) suffix ∧
        ∃ z, suffix.getLast? = some z ∧ stepv g z = start := by
  intro fuel
  induction fuel with
  | zero =>
    intro visited curr acc hfuel
    exact absurd hfuel (Nat.not_lt_zero _)
  | succ fuel ih =>
    intro visited curr acc hfuel hlive hunvis hpred hinv
    have hnext : (buildNextPointers g).getD
        ((g.directedEdges.getD curr default).symIdx) none = some (stepv g curr) :=
      next_sym g w hlive
    rw [ringWalk_succ_some _ _ _ _ _ _ _ _ hnext]
    by_cases hc : stepv g curr = start
    · rw [if_pos hc]
      refine ⟨[curr], updT visited curr, rfl, rfl, ?_, ?_, List.nodup_singleton _, ?_,
        List.chain'_singleton _, curr, rfl, hc⟩
      · intro j
        rw [updT_eq_true_iff]
        simp only [List.mem_singleton]
        tauto
      · intro j hj
        rw [List.mem_singleton] at hj
        exact hj ▸ ⟨hunvis, hlive⟩
      · intro x hx
        rcases (updT_eq_true_iff _ _ _).mp hx with rfl | hxv
        · refine ⟨hlive, ?_⟩
          rcases hpred with rfl | ⟨y, hy, hys⟩
          · exact absurd hc (stepv_ne_self g w hlive)
          · exact ⟨y, (updT_eq_true_iff _ _ _).mpr (Or.inr hy), hys⟩
        · obtain ⟨hxl, hxp⟩ := hinv x hxv
          refine ⟨hxl, ?_⟩
          rcases hxp with rfl | ⟨y, hy, hys⟩
          · exact ⟨curr, updT_self _ _, hc⟩
          · exact ⟨y, (updT_eq_true_iff _ _ _).mpr (Or.inr hy), hys⟩
    · rw [if_neg hc]
      have hnv : updT visited curr (stepv g curr) = false := by
        rcases Bool.eq_false_or_eq_true (updT visited curr (stepv g curr)) with hb | hb
        · exfalso
          rcases (updT_eq_true_iff _ _ _).mp hb with heq | hv
          · exact stepv_ne_self g w hlive heq
          · obtain ⟨hl2, hp2⟩ := hinv _ hv
            rcases hp2 with heq | ⟨y, hy, hys⟩
            · exact hc heq
            · have hyc : y = curr := stepv_inj g w (hinv y hy).1 hlive hys
              rw [hyc, hunvis] at hy
              exact Bool.false_ne_true hy
        · exact hb
      rw [hnv]
      simp only [Bool.false_eq_true, if_false]
      have hfuel2 : countFalseIn (updT visited curr) (numDE g) < fuel := by
        have := countFalseIn_updT_lt visited hlive.1 hunvis
        omega
      have hinv2 : WalkInv g start (updT visited curr) := by
        intro x hx
        rcases (updT_eq_true_iff _ _ _).mp hx with rfl | hxv
        · refine ⟨hlive, ?_⟩
          rcases hpred with rfl | ⟨y, hy, hys⟩
          · exact Or.inl rfl
          · exact Or.inr ⟨y, (updT_eq_true_iff _ _ _).mpr (Or.inr hy), hys⟩
        · obtain ⟨hxl, hxp⟩ := hinv x hxv
          refine ⟨hxl, ?_⟩
          rcases hxp with rfl | ⟨y, hy, hys⟩
          · exact Or.inl rfl
          · exact Or.inr ⟨y, (updT_eq_true_iff _ _ _).mpr (Or.inr hy), hys⟩
      obtain ⟨suffix, V', hres, hhead, hV, hfresh, hnd, hclosed, hchain, z, hlast, hz⟩ :=
        ih (updT visited curr) (stepv g curr) (acc ++ [curr]) hfuel2
          (stepv_live g w hlive) hnv
          (Or.inr ⟨curr, updT_self _ _, rfl⟩) hinv2
      rcases suffix with _ | ⟨s0, stail⟩
      · simp at hhead
      · have hs0 : s0 = stepv g curr := by simpa using hhead
        refine ⟨curr :: s0 :: stail, V', ?_, rfl, ?_, ?_, ?_, hclosed,
          List.chain'_cons.mpr ⟨hs0.symm, hchain⟩, z, ?_, hz⟩
        · rw [hres]
          simp [List.append_assoc]
        · intro j
          rw [hV j, updT_eq_true_iff]
          constructor
          · rintro ((rfl | hv) | hm)
            · exact Or.inr (List.mem_cons_self _ _)
            · exact Or.inl hv
            · exact Or.inr (List.mem_cons_of_mem _ hm)
          · rintro (hv | hm)
            · exact Or.inl (Or.inr hv)
            · rcases List.mem_cons.mp hm with rfl | hm2
              · exact Or.inl (Or.inl rfl)
              · exact Or.inr hm2
        · intro j hj
          rcases List.mem_cons.mp hj with rfl | hj2
          · exact ⟨hunvis, hlive⟩
          · obtain ⟨hv2, hl2⟩ := hfresh j hj2
            refine ⟨?_, hl2⟩
            rcases Bool.eq_false_or_eq_true (visited j) with hb | hb
            · rw [(updT_eq_true_iff visited curr j).mpr (Or.inr hb)] at hv2
              exact absurd hv2 (by simp)
            · exact hb
        · refine List.nodup_cons.mpr ⟨?_, hnd⟩
          intro hmem
          have hcv := (hfresh curr hmem).1
          rw [updT_self] at hcv
          exact absurd hcv (by simp)
        · rw [List.getLast?_cons_cons]
          exact hlast

/-- A well-formed emitted ring of edge indices: live edges, no repeats,
consecutive edges linked by the traversal step, and the last edge stepping
back to the first. -/
def RingGood (g : PlanarGraph) (r : List Nat) : Prop :=
  (∀ j ∈ r, liveDE g j) ∧ r.Nodup ∧
  List.Chain' (fun a b => stepv g a = b) r ∧
  ∃ s z, r.head? = some s ∧ r.getLast? = some z ∧ stepv g z = s

theorem edgeRingsLoop_cons_eq (next : List (Option Nat)) (des : List DirEdge)
    (s : Nat) (rest : List Nat) (visited : Nat → Bool) (acc : List (List Nat)) :
    edgeRingsLoop next des (s :: rest) visited acc =
      (if visited s = false && (des.getD s default).isMarked = false then
        match (ringWalk next des s (des.length + 1) visited s []).2 with
        | some ringEdges =>
          edgeRingsLoop next des rest
            (ringWalk next des s (des.length + 1) visited s []).1 (acc ++ [ringEdges])
        | none =>
          edgeRingsLoop next des rest
            (ringWalk next des s (des.length + 1) visited s []).1 acc
       else edgeRingsLoop next des rest visited acc) := rfl

/-- Outer loop of `get_edge_rings`: processing the remaining start indices
keeps the visited set a union of step cycles, keeps every emitted ring
well formed, and ends with every covered live edge in exactly one ring. -/
theorem edgeRingsLoop_spec (g : PlanarGraph) (w : RingWF g) :
    ∀ (starts : List Nat) (visited : Nat → Bool) (acc : List (List Nat)),
      (∀ s ∈ starts, s < numDE g) →
      ClosedInv g visited →
      (∀ e, liveDE g e → acc.countP (fun r => decide (e ∈ r)) =
        (if visited e = true then 1 else 0)) →
      (∀ r ∈ acc, RingGood g r) →
      (∀ e, liveDE g e → (visited e = true ∨ e ∈ starts) →
        (edgeRingsLoop (buildNextPointers g) g.directedEdges starts visited acc).countP
          (fun r => decide (e ∈ r)) = 1) ∧
      (∀ r ∈ edgeRingsLoop (buildNextPointers g) g.directedEdges starts visited acc,
        RingGood g r) := by
  intro starts
  induction starts with
  | nil =>
    intro visited acc hbound hinv hcount hgood
    refine ⟨?_, hgood⟩
    intro e he hcov
    rcases hcov with hv | hm
    · show acc.countP _ = 1
      rw [hcount e he, if_pos hv]
    · simp at hm
  | cons s rest ih =>
    intro visited acc hbound hinv hcount hgood
    by_cases hv : visited s = true
    · have hcondF : (decide (visited s = false) &&
          decide ((g.directedEdges.getD s default).isMarked = false)) = false := by
        rw [hv]
        rfl
      rw [edgeRingsLoop_cons_eq, hcondF]
      simp only [Bool.false_eq_true, if_false]
      obtain ⟨ha, hb⟩ := ih visited acc (fun x hx => hbound x (List.mem_cons_of_mem _ hx))
        hinv hcount hgood
      refine ⟨?_, hb⟩
      intro e he hcov
      apply ha e he
      rcases hcov with h1 | h1
      · exact Or.inl h1
      · rcases List.mem_cons.mp h1 with rfl | h2
        · exact Or.inl hv
        · exact Or.inr h2
    · have hvf : visited s = false := by
        rcases Bool.eq_false_or_eq_true (visited s) with h | h
        · exact absurd h hv
        · exact h
      by_cases hmk : (g.directedEdges.getD s default).isMarked = false
      · -- live unvisited start: the walk closes a new ring
        have hslive : liveDE g s := ⟨hbound s (List.mem_cons_self _ _), hmk⟩
        have hfuel : countFalseIn visited (numDE g) < g.directedEdges.length + 1 := by
          have h1 : countFalseIn visited (numDE g) ≤ numDE g := by
            unfold countFalseIn
            calc (List.range (numDE g)).countP _ ≤ (List.range (numDE g)).length :=
                  List.countP_le_length _
              _ = numDE g := List.length_range _
          have h2 : numDE g = g.directedEdges.length := rfl
          omega
        have hwinv : WalkInv g s visited := fun x hx =>
          ⟨(hinv x hx).1, Or.inr (hinv x hx).2⟩
        obtain ⟨suffix, V', hres, hhead, hV, hfresh, hnd, hclosed, hchain, z, hlast, hz⟩ :=
          ringWalk_spec g w s hslive (g.directedEdges.length + 1) visited s []
            hfuel hslive hvf (Or.inl rfl) hwinv
        rw [List.nil_append] at hres
        have hcondT : (decide (visited s = false) &&
            decide ((g.directedEdges.getD s default).isMarked = false)) = true := by
          rw [hvf, hmk]
          decide
        have hstep : edgeRingsLoop (buildNextPointers g) g.directedEdges (s :: rest)
            visited acc = edgeRingsLoop (buildNextPointers g) g.directedEdges rest V'
              (acc ++ [suffix]) := by
          rw [edgeRingsLoop_cons_eq, hcondT, hres]
          rfl
        have hsmem : s ∈ suffix := List.mem_of_mem_head? (by rw [hhead]; rfl)
        have hcount2 : ∀ e, liveDE g e → (acc ++ [suffix]).countP
            (fun r => decide (e ∈ r)) = (if V' e = true then 1 else 0) := by
          intro e he
          rw [List.countP_append]
          by_cases hmem : e ∈ suffix
          · have hvis : visited e = false := (hfresh e hmem).1
            have hV'e : V' e = true := (hV e).mpr (Or.inr hmem)
            rw [hcount e he, hvis, hV'e]
            simp [hmem]
          · have hVe : V' e = visited e := by
              rcases Bool.eq_false_or_eq_true (visited e) with h1 | h1
              · rw [h1]
                exact (hV e).mpr (Or.inl h1)
              · rw [h1]
                rcases Bool.eq_false_or_eq_true (V' e) with h2 | h2
                · rcases (hV e).mp h2 with h3 | h3
                  · rw [h1] at h3
                    exact absurd h3 (by simp)
                  · exact absurd h3 hmem
                · exact h2
            rw [hcount e he, hVe]
            simp [hmem]
        have hgood2 : ∀ r ∈ acc ++ [suffix], RingGood g r := by
          intro r hr
          rcases List.mem_append.mp hr with h1 | h1
          · exact hgood r h1
          · rw [List.mem_singleton] at h1
            subst h1
            exact ⟨fun j hj => (hfresh j hj).2, hnd, hchain, s, z, hhead, hlast, hz⟩
        obtain ⟨ha, hb⟩ := ih V' (acc ++ [suffix])
          (fun x hx => hbound x (List.mem_cons_of_mem _ hx)) hclosed hcount2 hgood2
        rw [hstep]
        refine ⟨?_, hb⟩
        intro e he hcov
        apply ha e he
        rcases hcov with h1 | h1
        · exact Or.inl ((hV e).mpr (Or.inl h1))
        · rcases List.mem_cons.mp h1 with rfl | h2
          · exact Or.inl ((hV e).mpr (Or.inr hsmem))
          · exact Or.inr h2
      · -- marked start: skipped, and no live edge equals it
        have hcondF : (decide (visited s = false) &&
            decide ((g.directedEdges.getD s default).isMarked = false)) = false := by
          rw [decide_eq_false hmk, Bool.and_false]
        rw [edgeRingsLoop_cons_eq, hcondF]
        simp only [Bool.false_eq_true, if_false]
        obtain ⟨ha, hb⟩ := ih visited acc (fun x hx => hbound x (List.mem_cons_of_mem _ hx))
          hinv hcount hgood
        refine ⟨?_, hb⟩
        intro e he hcov
        apply ha e he
        rcases hcov with h1 | h1
        · exact Or.inl h1
        · rcases List.mem_cons.mp h1 with rfl | h2
          · exact absurd he.2 hmk
          · exact Or.inr h2

/-- Partition half of claim C5 over the ring cores: a live half edge lies in
exactly one emitted edge ring. -/
theorem edgeRingsCore_partition (g : PlanarGraph) (w : RingWF g) (e : Nat)
    (he : liveDE g e) :
    (edgeRingsCore g).countP (fun r => decide (e ∈ r)) = 1 := by
  unfold edgeRingsCore
  exact (edgeRingsLoop_spec g w (List.range g.directedEdges.length) (fun _ => false) []
    (fun x hx => List.mem_range.mp hx)
    (fun x hx => absurd hx (by simp))
    (fun e2 _ => by simp)
    (fun r hr => absurd hr (by simp))).1 e he (Or.inr (List.mem_range.mpr he.1))

/-- Every emitted edge ring is well formed. -/
theorem edgeRingsCore_good (g : PlanarGraph) (w : RingWF g) :
    ∀ r ∈ edgeRingsCore g, RingGood g r := by
  unfold edgeRingsCore
  exact (edgeRingsLoop_spec g w (List.range g.directedEdges.length) (fun _ => false) []
    (fun x hx => List.mem_range.mp hx)
    (fun x hx => absurd hx (by simp))
    (fun e2 _ => by simp)
    (fun r hr => absurd hr (by simp))).2

theorem getLast?_cons_eq_of_ne_nil {α : Type} (a : α) (l : List α) (h : l ≠ []) :
    (a :: l).getLast? = l.getLast? := by
  cases l with
  | nil => exact absurd rfl h
  | cons b t => exact List.getLast?_cons_cons

/-- The coordinate sequence of a well-formed edge ring is closed: at least
two coordinates, and the first one equal to the last one exactly. -/
theorem ringCoords_closed (g : PlanarGraph) (w : RingWF g) {r : List Nat}
    (hg : RingGood g r) :
    2 ≤ (ringCoords g r).length ∧ (ringCoords g r).head? = (ringCoords g r).getLast? := by
  obtain ⟨hlive, hnd, hchain, s, z, hhead, hlast, hz⟩ := hg
  rcases r with _ | ⟨e0, rt⟩
  · simp at hhead
  · have hs : e0 = s := by simpa using hhead
    have hzl : liveDE g z := hlive z (List.mem_of_mem_getLast? (by rw [hlast]; rfl))
    have hdz : dstOf g z = srcOf g e0 := by
      have h1 := srcOf_stepv g w hzl
      rw [hz] at h1
      rw [hs]
      exact h1.symm
    have hcoords : ringCoords g (e0 :: rt) =
        (⟨g.nodesX.getD (srcOf g e0) 0, g.nodesY.getD (srcOf g e0) 0⟩ : Pt) ::
          (e0 :: rt).map (fun de => (⟨g.nodesX.getD (dstOf g de) 0,
            g.nodesY.getD (dstOf g de) 0⟩ : Pt)) := rfl
    rw [hcoords]
    constructor
    · simp
    · rw [getLast?_cons_eq_of_ne_nil _ _ (by simp), List.getLast?_map, hlast,
        List.head?_cons, Option.map_some', ← hdz]

theorem getD_set_self' {α : Type} (l : List α) (i : Nat) (v d : α) (h : i < l.length) :
    (l.set i v).getD i d = v := by
  rw [List.getD_eq_getElem _ _ (by simpa using h), List.getElem_set_self]

theorem getD_set_ne' {α : Type} (l : List α) (i j : Nat) (v d : α) (h : i ≠ j) :
    (l.set i v).getD j d = l.getD j d := by
  rcases Nat.lt_or_ge j l.length with hj | hj
  · rw [List.getD_eq_getElem _ _ (by simpa using hj), List.getElem_set_ne h,
      List.getD_eq_getElem _ _ hj]
  · rw [List.getD_eq_default _ _ (by simpa using hj), List.getD_eq_default _ _ hj]

theorem markDE_length (des : List DirEdge) (i : Nat) :
    (markDE des i).length = des.length := by
  unfold markDE
  cases h : des.get? i
  · rfl
  · exact List.length_set ..

theorem markDE_eq_set (des : List DirEdge) (i : Nat) (h : i < des.length) :
    markDE des i = des.set i { des.getD i default with isMarked := true } := by
  unfold markDE
  rw [List.get?_eq_getElem?, List.getElem?_eq_getElem h, List.getD_eq_getElem _ _ h]

theorem markDE_eq_of_ge (des : List DirEdge) (i : Nat) (h : des.length ≤ i) :
    markDE des i = des := by
  unfold markDE
  rw [List.get?_eq_getElem?, List.getElem?_eq_none h]

theorem markDE_getD_fields (des : List DirEdge) (i j : Nat) :
    ((markDE des i).getD j default).src = (des.getD j default).src ∧
    ((markDE des i).getD j default).dst = (des.getD j default).dst ∧
    ((markDE des i).getD j default).symIdx = (des.getD j default).symIdx := by
  rcases Nat.lt_or_ge i des.length with hi | hi
  · rw [markDE_eq_set des i hi]
    rcases Nat.lt_or_ge j des.length with hj | hj
    · by_cases hij : i = j
      · subst hij
        rw [List.getD_eq_getElem _ _ (by simpa using hj), List.getElem_set_self,
          List.getD_eq_getElem _ _ hj]
        exact ⟨rfl, rfl, rfl⟩
      · rw [List.getD_eq_getElem _ _ (by simpa using hj), List.getElem_set_ne hij,
          List.getD_eq_getElem _ _ hj]
        exact ⟨rfl, rfl, rfl⟩
    · rw [List.getD_eq_default _ _ (by simpa using hj), List.getD_eq_default _ _ hj]
      exact ⟨rfl, rfl, rfl⟩
  · rw [markDE_eq_of_ge des i hi]
    exact ⟨rfl, rfl, rfl⟩

theorem markDE_getD_marked_self (des : List DirEdge) (i : Nat) (h : i < des.length) :
    ((markDE des i).getD i default).isMarked = true := by
  rw [markDE_eq_set des i h, List.getD_eq_getElem _ _ (by simpa using h),
    List.getElem_set_self]

theorem markDE_getD_marked_ne (des : List DirEdge) (i j : Nat) (h : i ≠ j) :
    ((markDE des i).getD j default).isMarked = (des.getD j default).isMarked := by
  rcases Nat.lt_or_ge i des.length with hi | hi
  · rw [markDE_eq_set des i hi]
    rcases Nat.lt_or_ge j des.length with hj | hj
    · rw [List.getD_eq_getElem _ _ (by simpa using hj), List.getElem_set_ne h,
        List.getD_eq_getElem _ _ hj]
    · rw [List.getD_eq_default _ _ (by simpa using hj), List.getD_eq_default _ _ hj]
  · rw [markDE_eq_of_ge des i hi]

theorem filter_length_flip (p q : Nat → Bool) (a : Nat) :
    ∀ l : List Nat, l.Nodup → a ∈ l → p a = true → q a = false →
      (∀ x ∈ l, x ≠ a → p x = q x) →
      (l.filter p).length = (l.filter q).length + 1 := by
  intro l
  induction l with
  | nil =>
    intro _ hm
    simp at hm
  | cons b t ih =>
    intro hnd hm hp hq hag
    rw [List.nodup_cons] at hnd
    rcases List.mem_cons.mp hm with rfl | hmt
    · have hft : t.filter p = t.filter q :=
        List.filter_congr fun x hx =>
          hag x (List.mem_cons_of_mem _ hx) (fun he => hnd.1 (he ▸ hx))
      simp [List.filter_cons, hp, hq, hft]
    · have hba : b ≠ a := fun he => hnd.1 (he ▸ hmt)
      have hpp : p b = q b := hag b (List.mem_cons_self _ _) hba
      have ht := ih hnd.2 hmt hp hq fun x hx hxa => hag x (List.mem_cons_of_mem _ hx) hxa
      by_cases hpb : p b = true
      · have hqb : q b = true := by rw [← hpp]; exact hpb
        simp [List.filter_cons, hpb, hqb, ht]
      · have hpb2 : p b = false := by simpa using hpb
        have hqb2 : q b = false := by rw [← hpp]; exact hpb2
        simp [List.filter_cons, hpb2, hqb2, ht]

theorem validList_singleton (g : PlanarGraph) (w : RingWF g) {n de : Nat}
    (hdeg : degD g n = 1) (hde : de ∈ validList g n) : validList g n = [de] := by
  have hlen : (validList g n).length = 1 := by rw [← w.deg_eq]; exact hdeg
  obtain ⟨a, ha⟩ := List.length_eq_one.mp hlen
  rw [ha] at hde ⊢
  rw [List.mem_singleton] at hde
  rw [hde]

/-- The graph after one pruning step of `prune_dangles` on node `n` through
its live outgoing edge `de`: mark the node, zero its degree, mark both half
edges of `de`, and decrement the neighbor's degree. -/
def pruneStepG (g : PlanarGraph) (n de : Nat) : PlanarGraph :=
  { g with
    nodesMarked := g.nodesMarked.set n true,
    nodesDegree := pruneNeighbor (g.nodesDegree.set n 0)
      ((g.directedEdges.getD de default).dst),
    directedEdges := markDE (markDE g.directedEdges de)
      ((g.directedEdges.getD de default).symIdx) }

/-- One pruning step on a degree-1 node with a live outgoing edge preserves
the half-edge arena invariants. -/
theorem ringWF_pruneStep (g : PlanarGraph) (w : RingWF g) (n de : Nat)
    (hdeg1 : degD g n = 1)
    (hfind : (g.nodesOutgoing.getD n []).find?
      (fun e => (g.directedEdges.getD e default).isMarked = false) = some de) :
    RingWF (pruneStepG g n de) := by
  have hmem : de ∈ outD g n := List.mem_of_find?_eq_some hfind
  have hmk : markedOf g de = false := by
    have h1 := List.find?_some hfind
    simpa [markedOf, deD] using h1
  obtain ⟨hlt, hsrc⟩ := w.out_src n de hmem
  have hlive : liveDE g de := ⟨hlt, hmk⟩
  have hslt : symOf g de < numDE g := w.sym_lt de hlt
  have hsmk : markedOf g (symOf g de) = false := by
    rw [w.sym_marked de hlt]
    exact hmk
  have hslive : liveDE g (symOf g de) := ⟨hslt, hsmk⟩
  have hsne : symOf g de ≠ de := by
    intro h
    have h2 := w.sym_src de hlt
    rw [h] at h2
    exact w.src_ne_dst de hlt h2
  have hnbs : srcOf g (symOf g de) = dstOf g de := w.sym_src de hlt
  have hnne : n ≠ dstOf g de := fun h => w.src_ne_dst de hlt (hsrc.trans h)
  have hsmem : symOf g de ∈ validList g (dstOf g de) := by
    have h1 := w.mem_valid hslive
    rw [hnbs] at h1
    exact h1
  have hnbpos : 1 ≤ degD g (dstOf g de) := by
    rw [w.deg_eq]
    exact List.length_pos.mpr (List.ne_nil_of_mem hsmem)
  have hnlt : n < g.nodesDegree.length := by
    by_contra h
    have h0 : degD g n = 0 := List.getD_eq_default _ _ (Nat.le_of_not_lt h)
    omega
  have hnblt : dstOf g de < g.nodesDegree.length := by
    by_contra h
    have h0 : degD g (dstOf g de) = 0 := List.getD_eq_default _ _ (Nat.le_of_not_lt h)
    omega
  have hvn : validList g n = [de] :=
    validList_singleton g w hdeg1 (hsrc ▸ w.mem_valid hlive)
  have hdes : (pruneStepG g n de).directedEdges =
      markDE (markDE g.directedEdges de) (symOf g de) := rfl
  have hnum : numDE (pruneStepG g n de) = numDE g := by
    unfold numDE
    rw [hdes, markDE_length, markDE_length]
  have hsrc2 : ∀ j, srcOf (pruneStepG g n de) j = srcOf g j := by
    intro j
    unfold srcOf deD
    rw [hdes, (markDE_getD_fields _ _ _).1, (markDE_getD_fields _ _ _).1]
  have hdst2 : ∀ j, dstOf (pruneStepG g n de) j = dstOf g j := by
    intro j
    unfold dstOf deD
    rw [hdes, (markDE_getD_fields _ _ _).2.1, (markDE_getD_fields _ _ _).2.1]
  have hsym2 : ∀ j, symOf (pruneStepG g n de) j = symOf g j := by
    intro j
    unfold symOf deD
    rw [hdes, (markDE_getD_fields _ _ _).2.2, (markDE_getD_fields _ _ _).2.2]
  have hout2 : ∀ i, outD (pruneStepG g n de) i = outD g i := fun _ => rfl
  have hmk2 : ∀ j, j ≠ de → j ≠ symOf g de →
      markedOf (pruneStepG g n de) j = markedOf g j := by
    intro j h1 h2
    unfold markedOf deD
    rw [hdes, markDE_getD_marked_ne _ _ _ (fun he => h2 he.symm),
      markDE_getD_marked_ne _ _ _ (fun he => h1 he.symm)]
  have hmkde : markedOf (pruneStepG g n de) de = true := by
    unfold markedOf deD
    rw [hdes, markDE_getD_marked_ne _ _ _ hsne, markDE_getD_marked_self _ _ hlt]
  have hmks : markedOf (pruneStepG g n de) (symOf g de) = true := by
    unfold markedOf deD
    rw [hdes, markDE_getD_marked_self _ _ (by rw [markDE_length]; exact hslt)]
  have hdegval : pruneNeighbor (g.nodesDegree.set n 0) (dstOf g de) =
      (g.nodesDegree.set n 0).set (dstOf g de) (degD g (dstOf g de) - 1) := by
    have hnbpos2 : 0 < g.nodesDegree.getD (dstOf g de) 0 := hnbpos
    unfold pruneNeighbor
    rw [getD_set_ne' _ _ _ _ _ hnne, if_pos hnbpos2]
    rfl
  have hproj : (pruneStepG g n de).nodesDegree =
      pruneNeighbor (g.nodesDegree.set n 0) (dstOf g de) := rfl
  have hdegarr := hproj.trans hdegval
  have hdeg2 : ∀ i, i ≠ n → i ≠ dstOf g de →
      degD (pruneStepG g n de) i = degD g i := by
    intro i h1 h2
    unfold degD
    rw [hdegarr, getD_set_ne' _ _ _ _ _ (fun he => h2 he.symm),
      getD_set_ne' _ _ _ _ _ (fun he => h1 he.symm)]
  have hdegn : degD (pruneStepG g n de) n = 0 := by
    unfold degD
    rw [hdegarr, getD_set_ne' _ _ _ _ _ (Ne.symm hnne), getD_set_self' _ _ _ _ hnlt]
  have hdegnb : degD (pruneStepG g n de) (dstOf g de) = degD g (dstOf g de) - 1 := by
    unfold degD
    rw [hdegarr, getD_set_self' _ _ _ _ (by rw [List.length_set]; exact hnblt)]
    rfl
  have hsymne : ∀ e, e < numDE g → e ≠ de → e ≠ symOf g de →
      symOf g e ≠ de ∧ symOf g e ≠ symOf g de := by
    intro e he h1 h2
    constructor
    · intro hx
      apply h2
      rw [← w.sym_invol e he, hx]
    · intro hx
      apply h1
      rw [← w.sym_invol e he, hx, w.sym_invol de hlt]
  refine ⟨?_, ?_, ?_, ?_, ?_, ?_, ?_, ?_, ?_⟩
  · intro e he
    rw [hnum] at he
    rw [hsym2, hnum]
    exact w.sym_lt e he
  · intro e he
    rw [hnum] at he
    rw [hsym2, hsym2]
    exact w.sym_invol e he
  · intro e he
    rw [hnum] at he
    rw [hsrc2, hsym2, hdst2]
    exact w.sym_src e he
  · intro e he
    rw [hnum] at he
    rw [hsym2]
    by_cases h1 : e = de
    · subst h1
      rw [hmks, hmkde]
    · by_cases h2 : e = symOf g de
      · subst h2
        rw [w.sym_invol de hlt, hmkde, hmks]
      · obtain ⟨hs1, hs2⟩ := hsymne e he h1 h2
        rw [hmk2 _ hs1 hs2, hmk2 e h1 h2]
        exact w.sym_marked e he
  · intro e he
    rw [hnum] at he
    rw [hsrc2, hdst2]
    exact w.src_ne_dst e he
  · intro i e he
    obtain ⟨hl, hs⟩ := w.out_src i e he
    rw [hnum, hsrc2]
    exact ⟨hl, hs⟩
  · intro e he
    rw [hnum] at he
    rw [hsrc2]
    exact w.mem_out e he
  · exact fun i => w.out_nodup i
  · intro i
    by_cases h1 : i = n
    · rw [h1, hdegn]
      have hnil : validList (pruneStepG g n de) n = [] := by
        apply List.filter_eq_nil_iff.mpr
        intro x hx
        have hx2 : x ∈ outD g n := hx
        obtain ⟨hxl, hxs⟩ := w.out_src n x hx2
        by_cases hxde : x = de
        · subst hxde
          simp [hmkde]
        · have hxsym : x ≠ symOf g de := by
            intro hxx
            apply hnne
            rw [← hxs, hxx, hnbs]
          have hxmk : markedOf g x = true := by
            rcases Bool.eq_false_or_eq_true (markedOf g x) with hb | hb
            · exact hb
            · exfalso
              have hxv : x ∈ validList g n := List.mem_filter.mpr ⟨hx2, by simp [hb]⟩
              rw [hvn, List.mem_singleton] at hxv
              exact hxde hxv
          simp [hmk2 x hxde hxsym, hxmk]
      rw [hnil]
      rfl
    · by_cases h2 : i = dstOf g de
      · rw [h2, hdegnb]
        have hflip : (validList g (dstOf g de)).length =
            (validList (pruneStepG g n de) (dstOf g de)).length + 1 := by
          apply filter_length_flip _ _ (symOf g de) (outD g (dstOf g de))
            (w.out_nodup _) (List.mem_filter.mp hsmem).1
          · simp [hsmk]
          · simp [hmks]
          · intro x hx hxs
            obtain ⟨hxl, hxs2⟩ := w.out_src _ x hx
            have hxde : x ≠ de := by
              intro hxx
              rw [hxx, hsrc] at hxs2
              exact hnne hxs2
            rw [hmk2 x hxde hxs]
        rw [← w.deg_eq] at hflip
        omega
      · rw [hdeg2 i h1 h2]
        have hsame : validList (pruneStepG g n de) i = validList g i := by
          apply List.filter_congr
          intro x hx
          have hx2 : x ∈ outD g i := hx
          obtain ⟨hxl, hxs⟩ := w.out_src i x hx2
          have hxde : x ≠ de := by
            intro hxx
            apply h1
            rw [← hxs, hxx, hsrc]
          have hxsym : x ≠ symOf g de := by
            intro hxx
            apply h2
            rw [← hxs, hxx, hnbs]
          rw [hmk2 x hxde hxsym]
        rw [hsame]
        exact w.deg_eq i

theorem pruneLoop_succ_eq (fuel : Nat) (g : PlanarGraph) (n : Nat) (rest : List Nat)
    (removed : Nat) :
    pruneLoop (fuel + 1) g (n :: rest) removed =
      (if g.nodesDegree.getD n 0 ≠ 1 then pruneLoop fuel g rest removed
       else
        match (g.nodesOutgoing.getD n []).find?
            (fun de => (g.directedEdges.getD de default).isMarked = false) with
        | none =>
          pruneLoop fuel
            { g with
              nodesMarked := g.nodesMarked.set n true,
              nodesDegree := g.nodesDegree.set n 0 } rest (removed + 1)
        | some de =>
          pruneLoop fuel (pruneStepG g n de)
            (pruneWork2
              (pruneNeighbor (g.nodesDegree.set n 0) ((g.directedEdges.getD de default).dst))
              (g.nodesMarked.set n true) ((g.directedEdges.getD de default).dst) rest)
            (removed + 1)) := rfl

/-- The worklist loop of `prune_dangles` preserves the arena invariants. -/
theorem ringWF_pruneLoop (fuel : Nat) :
    ∀ (g : PlanarGraph) (work : List Nat) (removed : Nat), RingWF g →
      RingWF (pruneLoop fuel g work removed).1 := by
  induction fuel with
  | zero => exact fun g work removed w => w
  | succ fuel ih =>
    intro g work removed w
    rcases work with _ | ⟨n, rest⟩
    · exact w
    · rw [pruneLoop_succ_eq]
      by_cases hd : g.nodesDegree.getD n 0 ≠ 1
      · rw [if_pos hd]
        exact ih g rest removed w
      · rw [if_neg hd]
        have hdeg1 : degD g n = 1 := Decidable.not_not.mp hd
        cases hfind : (g.nodesOutgoing.getD n []).find?
            (fun de => (g.directedEdges.getD de default).isMarked = false) with
        | none =>
          exfalso
          have hvn : 0 < (validList g n).length := by
            rw [← w.deg_eq]
            omega
          have hne : validList g n ≠ [] := by
            intro h
            rw [h] at hvn
            simp at hvn
          obtain ⟨x, hx⟩ := List.exists_mem_of_ne_nil _ hne
          have hx2 := List.mem_filter.mp hx
          have hnone := List.find?_eq_none.mp hfind x hx2.1
          exact hnone hx2.2
        | some de =>
          exact ih _ _ _ (ringWF_pruneStep g w n de hdeg1 hfind)

/-- `prune_dangles` preserves the arena invariants. -/
theorem ringWF_pruneDangles (g : PlanarGraph) (w : RingWF g) :
    RingWF (pruneDangles g).1 :=
  ringWF_pruneLoop _ g _ 0 w

theorem outD_sortEdges_perm (g : PlanarGraph) (i : Nat) :
    (outD (sortEdges g) i).Perm (outD g i) := by
  unfold outD sortEdges
  rcases Nat.lt_or_ge i g.nodesOutgoing.length with hi | hi
  · rw [List.getD_eq_getElem _ _ (by simpa using hi), List.getElem_map,
      List.getD_eq_getElem _ _ hi]
    exact List.perm_insertionSort _ _
  · rw [List.getD_eq_default _ _ (by simpa using hi), List.getD_eq_default _ _ hi]

/-- `sort_edges` permutes each outgoing list and so preserves the arena
invariants. -/
theorem ringWF_sortEdges (g : PlanarGraph) (w : RingWF g) : RingWF (sortEdges g) := by
  have hperm := outD_sortEdges_perm g
  refine ⟨?_, ?_, ?_, ?_, ?_, ?_, ?_, ?_, ?_⟩
  · exact fun e he => w.sym_lt e he
  · exact fun e he => w.sym_invol e he
  · exact fun e he => w.sym_src e he
  · exact fun e he => w.sym_marked e he
  · exact fun e he => w.src_ne_dst e he
  · intro i e he
    exact w.out_src i e ((hperm i).mem_iff.mp he)
  · intro e he
    exact (hperm _).mem_iff.mpr (w.mem_out e he)
  · intro i
    exact (hperm i).nodup_iff.mpr (w.out_nodup i)
  · intro i
    have hd : degD (sortEdges g) i = degD g i := rfl
    rw [hd, w.deg_eq]
    exact (((hperm i).filter _).length_eq).symm

theorem getD_append_lt {α : Type} (l1 l2 : List α) (d : α) (n : Nat) (h : n < l1.length) :
    (l1 ++ l2).getD n d = l1.getD n d := by
  rw [List.getD_eq_getElem _ _ (by rw [List.length_append]; omega),
    List.getD_eq_getElem _ _ h]
  exact List.getElem_append_left h

theorem getD_append_ge {α : Type} (l1 l2 : List α) (d : α) (n : Nat) (h1 : l1.length ≤ n)
    (h2 : n < l1.length + l2.length) :
    (l1 ++ l2).getD n d = l2.getD (n - l1.length) d := by
  rw [List.getD_eq_getElem _ _ (by rw [List.length_append]; omega),
    List.getD_eq_getElem _ _ (by omega)]
  exact List.getElem_append_right h1

/-- Appending one edge through `add_edge`'s construction preserves the arena
invariants, provided the two node indices are distinct and in range. -/
theorem ringWF_addEdge (g : PlanarGraph) (w : RingWF g) (u v : Nat) (line : Seg)
    (hu : u < g.nodesOutgoing.length) (hud : u < g.nodesDegree.length)
    (hv : v < g.nodesOutgoing.length) (hvd : v < g.nodesDegree.length)
    (huv : u ≠ v) :
    RingWF (addEdge g (u, v, line)) := by
  have hdes : (addEdge g (u, v, line)).directedEdges =
      g.directedEdges ++
        [⟨u, v, g.edges.length, g.directedEdges.length + 1,
          ⟨g.nodesX.getD v 0 - g.nodesX.getD u 0, g.nodesY.getD v 0 - g.nodesY.getD u 0⟩,
          false, true⟩,
         ⟨v, u, g.edges.length, g.directedEdges.length,
          ⟨g.nodesX.getD u 0 - g.nodesX.getD v 0, g.nodesY.getD u 0 - g.nodesY.getD v 0⟩,
          false, false⟩] := rfl
  have hnum : numDE (addEdge g (u, v, line)) = g.directedEdges.length + 2 := by
    unfold numDE
    rw [hdes, List.length_append]
    rfl
  have h1 : ∀ e, e < g.directedEdges.length →
      deD (addEdge g (u, v, line)) e = deD g e := by
    intro e he
    unfold deD
    rw [hdes, getD_append_lt _ _ _ _ he]
  have h2 : deD (addEdge g (u, v, line)) g.directedEdges.length =
      ⟨u, v, g.edges.length, g.directedEdges.length + 1,
        ⟨g.nodesX.getD v 0 - g.nodesX.getD u 0, g.nodesY.getD v 0 - g.nodesY.getD u 0⟩,
        false, true⟩ := by
    unfold deD
    rw [hdes, getD_append_ge _ _ _ _ (le_refl _) (by simp), Nat.sub_self]
    rfl
  have h3 : deD (addEdge g (u, v, line)) (g.directedEdges.length + 1) =
      ⟨v, u, g.edges.length, g.directedEdges.length,
        ⟨g.nodesX.getD u 0 - g.nodesX.getD v 0, g.nodesY.getD u 0 - g.nodesY.getD v 0⟩,
        false, false⟩ := by
    unfold deD
    rw [hdes, getD_append_ge _ _ _ _ (by omega) (by simp),
      Nat.add_sub_cancel_left]
    rfl
  have houtarr : (addEdge g (u, v, line)).nodesOutgoing =
      (g.nodesOutgoing.set u
        (g.nodesOutgoing.getD u [] ++ [g.directedEdges.length])).set v
        ((g.nodesOutgoing.set u
          (g.nodesOutgoing.getD u [] ++ [g.directedEdges.length])).getD v [] ++
          [g.directedEdges.length + 1]) := rfl
  have hout_u : outD (addEdge g (u, v, line)) u =
      outD g u ++ [g.directedEdges.length] := by
    unfold outD
    rw [houtarr, getD_set_ne' _ _ _ _ _ (Ne.symm huv), getD_set_self' _ _ _ _ hu]
  have hout_v : outD (addEdge g (u, v, line)) v =
      outD g v ++ [g.directedEdges.length + 1] := by
    unfold outD
    rw [houtarr, getD_set_self' _ _ _ _ (by rw [List.length_set]; exact hv),
      getD_set_ne' _ _ _ _ _ huv]
  have hout_other : ∀ i, i ≠ u → i ≠ v →
      outD (addEdge g (u, v, line)) i = outD g i := by
    intro i hiu hiv
    unfold outD
    rw [houtarr, getD_set_ne' _ _ _ _ _ (fun he => hiv he.symm),
      getD_set_ne' _ _ _ _ _ (fun he => hiu he.symm)]
  have hdegarr : (addEdge g (u, v, line)).nodesDegree =
      (g.nodesDegree.set u (g.nodesDegree.getD u 0 + 1)).set v
        ((g.nodesDegree.set u (g.nodesDegree.getD u 0 + 1)).getD v 0 + 1) := rfl
  have hdeg_u : degD (addEdge g (u, v, line)) u = degD g u + 1 := by
    unfold degD
    rw [hdegarr, getD_set_ne' _ _ _ _ _ (Ne.symm huv), getD_set_self' _ _ _ _ hud]
  have hdeg_v : degD (addEdge g (u, v, line)) v = degD g v + 1 := by
    unfold degD
    rw [hdegarr, getD_set_self' _ _ _ _ (by rw [List.length_set]; exact hvd),
      getD_set_ne' _ _ _ _ _ huv]
  have hdeg_other : ∀ i, i ≠ u → i ≠ v →
      degD (addEdge g (u, v, line)) i = degD g i := by
    intro i hiu hiv
    unfold degD
    rw [hdegarr, getD_set_ne' _ _ _ _ _ (fun he => hiv he.symm),
      getD_set_ne' _ _ _ _ _ (fun he => hiu he.symm)]
  have hmk_lt : ∀ e, e < g.directedEdges.length →
      markedOf (addEdge g (u, v, line)) e = markedOf g e := by
    intro e he
    unfold markedOf
    rw [h1 e he]
  have hsrc_lt : ∀ e, e < g.directedEdges.length →
      srcOf (addEdge g (u, v, line)) e = srcOf g e := by
    intro e he
    unfold srcOf
    rw [h1 e he]
  have hdst_lt : ∀ e, e < g.directedEdges.length →
      dstOf (addEdge g (u, v, line)) e = dstOf g e := by
    intro e he
    unfold dstOf
    rw [h1 e he]
  have hsym_lt2 : ∀ e, e < g.directedEdges.length →
      symOf (addEdge g (u, v, line)) e = symOf g e := by
    intro e he
    unfold symOf
    rw [h1 e he]
  have hmemlt : ∀ i e, e ∈ outD g i → e < g.directedEdges.length ∧ srcOf g e = i :=
    fun i e he => w.out_src i e he
  refine ⟨?_, ?_, ?_, ?_, ?_, ?_, ?_, ?_, ?_⟩
  · intro e he
    rw [hnum] at he ⊢
    rcases Nat.lt_trichotomy e g.directedEdges.length with hc | hc | hc
    · rw [hsym_lt2 e hc]
      have hlt := w.sym_lt e hc
      have hnn : numDE g = g.directedEdges.length := rfl
      omega
    · subst hc
      rw [show symOf (addEdge g (u, v, line)) g.directedEdges.length =
        g.directedEdges.length + 1 from by unfold symOf; rw [h2]]
      omega
    · have hc2 : e = g.directedEdges.length + 1 := by omega
      subst hc2
      rw [show symOf (addEdge g (u, v, line)) (g.directedEdges.length + 1) =
        g.directedEdges.length from by unfold symOf; rw [h3]]
      omega
  · intro e he
    rw [hnum] at he
    rcases Nat.lt_trichotomy e g.directedEdges.length with hc | hc | hc
    · rw [hsym_lt2 e hc, hsym_lt2 _ (w.sym_lt e hc)]
      exact w.sym_invol e hc
    · subst hc
      conv_lhs => rw [show symOf (addEdge g (u, v, line)) g.directedEdges.length =
        g.directedEdges.length + 1 from by unfold symOf; rw [h2]]
      unfold symOf
      rw [h3]
    · have hc2 : e = g.directedEdges.length + 1 := by omega
      subst hc2
      conv_lhs => rw [show symOf (addEdge g (u, v, line)) (g.directedEdges.length + 1) =
        g.directedEdges.length from by unfold symOf; rw [h3]]
      unfold symOf
      rw [h2]
  · intro e he
    rw [hnum] at he
    rcases Nat.lt_trichotomy e g.directedEdges.length with hc | hc | hc
    · rw [hsym_lt2 e hc, hsrc_lt _ (w.sym_lt e hc), hdst_lt e hc]
      exact w.sym_src e hc
    · subst hc
      rw [show symOf (addEdge g (u, v, line)) g.directedEdges.length =
        g.directedEdges.length + 1 from by unfold symOf; rw [h2]]
      unfold srcOf dstOf
      rw [h2, h3]
    · have hc2 : e = g.directedEdges.length + 1 := by omega
      subst hc2
      rw [show symOf (addEdge g (u, v, line)) (g.directedEdges.length + 1) =
        g.directedEdges.length from by unfold symOf; rw [h3]]
      unfold srcOf dstOf
      rw [h2, h3]
  · intro e he
    rw [hnum] at he
    rcases Nat.lt_trichotomy e g.directedEdges.length with hc | hc | hc
    · rw [hsym_lt2 e hc, hmk_lt _ (w.sym_lt e hc), hmk_lt e hc]
      exact w.sym_marked e hc
    · subst hc
      rw [show symOf (addEdge g (u, v, line)) g.directedEdges.length =
        g.directedEdges.length + 1 from by unfold symOf; rw [h2]]
      unfold markedOf
      rw [h2, h3]
    · have hc2 : e = g.directedEdges.length + 1 := by omega
      subst hc2
      rw [show symOf (addEdge g (u, v, line)) (g.directedEdges.length + 1) =
        g.directedEdges.length from by unfold symOf; rw [h3]]
      unfold markedOf
      rw [h2, h3]
  · intro e he
    rw [hnum] at he
    rcases Nat.lt_trichotomy e g.directedEdges.length with hc | hc | hc
    · rw [hsrc_lt e hc, hdst_lt e hc]
      exact w.src_ne_dst e hc
    · subst hc
      unfold srcOf dstOf
      rw [h2]
      exact huv
    · have hc2 : e = g.directedEdges.length + 1 := by omega
      subst hc2
      unfold srcOf dstOf
      rw [h3]
      exact fun he2 => huv he2.symm
  · intro i e he
    rw [hnum]
    by_cases hiu : i = u
    · subst hiu
      rw [hout_u] at he
      rcases List.mem_append.mp he with hm | hm
      · obtain ⟨hl, hs⟩ := hmemlt i e hm
        rw [hsrc_lt e hl]
        exact ⟨by omega, hs⟩
      · rw [List.mem_singleton] at hm
        subst hm
        unfold srcOf
        rw [h2]
        exact ⟨by omega, rfl⟩
    · by_cases hiv : i = v
      · subst hiv
        rw [hout_v] at he
        rcases List.mem_append.mp he with hm | hm
        · obtain ⟨hl, hs⟩ := hmemlt i e hm
          rw [hsrc_lt e hl]
          exact ⟨by omega, hs⟩
        · rw [List.mem_singleton] at hm
          subst hm
          unfold srcOf
          rw [h3]
          exact ⟨by omega, rfl⟩
      · rw [hout_other i hiu hiv] at he
        obtain ⟨hl, hs⟩ := hmemlt i e he
        rw [hsrc_lt e hl]
        exact ⟨by omega, hs⟩
  · intro e he
    rw [hnum] at he
    rcases Nat.lt_trichotomy e g.directedEdges.length with hc | hc | hc
    · rw [hsrc_lt e hc]
      have hm := w.mem_out e hc
      by_cases hsu : srcOf g e = u
      · rw [hsu, hout_u]
        exact List.mem_append_left _ (hsu ▸ hm)
      · by_cases hsv : srcOf g e = v
        · rw [hsv, hout_v]
          exact List.mem_append_left _ (hsv ▸ hm)
        · rw [hout_other _ hsu hsv]
          exact hm
    · subst hc
      rw [show srcOf (addEdge g (u, v, line)) g.directedEdges.length = u from by
        unfold srcOf; rw [h2], hout_u]
      exact List.mem_append_right _ (List.mem_singleton.mpr rfl)
    · have hc2 : e = g.directedEdges.length + 1 := by omega
      subst hc2
      rw [show srcOf (addEdge g (u, v, line)) (g.directedEdges.length + 1) = v from by
        unfold srcOf; rw [h3], hout_v]
      exact List.mem_append_right _ (List.mem_singleton.mpr rfl)
  · intro i
    by_cases hiu : i = u
    · subst hiu
      rw [hout_u]
      rw [List.nodup_append]
      refine ⟨w.out_nodup i, List.nodup_singleton _, ?_⟩
      intro x hx hx2
      rw [List.mem_singleton] at hx2
      obtain ⟨hl, _⟩ := hmemlt i x hx
      omega
    · by_cases hiv : i = v
      · subst hiv
        rw [hout_v]
        rw [List.nodup_append]
        refine ⟨w.out_nodup i, List.nodup_singleton _, ?_⟩
        intro x hx hx2
        rw [List.mem_singleton] at hx2
        obtain ⟨hl, _⟩ := hmemlt i x hx
        omega
      · rw [hout_other i hiu hiv]
        exact w.out_nodup i
  · intro i
    have hfc : ∀ l : List Nat, (∀ x ∈ l, x < g.directedEdges.length) →
        l.filter (fun e => markedOf (addEdge g (u, v, line)) e = false) =
          l.filter (fun e => markedOf g e = false) := by
      intro l hl
      apply List.filter_congr
      intro x hx
      rw [hmk_lt x (hl x hx)]
    by_cases hiu : i = u
    · rw [hiu, hdeg_u]
      show _ = ((outD (addEdge g (u, v, line)) u).filter _).length
      rw [hout_u, List.filter_append, hfc _ (fun x hx => (hmemlt u x hx).1)]
      have hsing : [g.directedEdges.length].filter
          (fun e => markedOf (addEdge g (u, v, line)) e = false) =
          [g.directedEdges.length] := by
        have hmN : markedOf (addEdge g (u, v, line)) g.directedEdges.length = false := by
          unfold markedOf
          rw [h2]
        simp [List.filter_cons, hmN]
      rw [hsing, List.length_append, w.deg_eq]
      rfl
    · by_cases hiv : i = v
      · rw [hiv, hdeg_v]
        show _ = ((outD (addEdge g (u, v, line)) v).filter _).length
        rw [hout_v, List.filter_append, hfc _ (fun x hx => (hmemlt v x hx).1)]
        have hsing : [g.directedEdges.length + 1].filter
            (fun e => markedOf (addEdge g (u, v, line)) e = false) =
            [g.directedEdges.length + 1] := by
          have hmN : markedOf (addEdge g (u, v, line))
              (g.directedEdges.length + 1) = false := by
            unfold markedOf
            rw [h3]
          simp [List.filter_cons, hmN]
        rw [hsing, List.length_append, w.deg_eq]
        rfl
      · rw [hdeg_other i hiu hiv]
        show _ = ((outD (addEdge g (u, v, line)) i).filter _).length
        rw [hout_other i hiu hiv, hfc _ (fun x hx => (hmemlt i x hx).1), w.deg_eq]
        rfl

theorem addEdge_outgoing_length (g : PlanarGraph) (uvl : Nat × Nat × Seg) :
    (addEdge g uvl).nodesOutgoing.length = g.nodesOutgoing.length := by
  show ((g.nodesOutgoing.set _ _).set _ _).length = _
  rw [List.length_set, List.length_set]

theorem addEdge_degree_length (g : PlanarGraph) (uvl : Nat × Nat × Seg) :
    (addEdge g uvl).nodesDegree.length = g.nodesDegree.length := by
  show ((g.nodesDegree.set _ _).set _ _).length = _
  rw [List.length_set, List.length_set]

/-- `bulk_load`'s edge-construction fold preserves the arena invariants. -/
theorem ringWF_foldl (entriesLen : Nat) :
    ∀ (es : List (Nat × Nat × Seg)) (g : PlanarGraph),
      RingWF g → g.nodesOutgoing.length = entriesLen →
      g.nodesDegree.length = entriesLen →
      (∀ p ∈ es, p.1 < entriesLen ∧ p.2.1 < entriesLen ∧ p.1 ≠ p.2.1) →
      RingWF (es.foldl addEdge g) := by
  intro es
  induction es with
  | nil => exact fun g w _ _ _ => w
  | cons p t ih =>
    intro g w h1 h2 hp
    rw [List.foldl_cons]
    obtain ⟨hu, hv, huv⟩ := hp p (List.mem_cons_self _ _)
    have hu1 : p.1 < g.nodesOutgoing.length := by rw [h1]; exact hu
    have hu2 : p.1 < g.nodesDegree.length := by rw [h2]; exact hu
    have hv1 : p.2.1 < g.nodesOutgoing.length := by rw [h1]; exact hv
    have hv2 : p.2.1 < g.nodesDegree.length := by rw [h2]; exact hv
    have hW : RingWF (addEdge g p) :=
      ringWF_addEdge g w p.1 p.2.1 p.2.2 hu1 hu2 hv1 hv2 huv
    exact ih (addEdge g p) hW
      (by rw [addEdge_outgoing_length]; exact h1)
      (by rw [addEdge_degree_length]; exact h2)
      (fun q hq => hp q (List.mem_cons_of_mem _ hq))

theorem findIdx?_pred {α : Type} (l : List α) (p : α → Bool) (i : Nat)
    (h : l.findIdx? p = some i) (hi : i < l.length) : p l[i] = true := by
  have h2 := List.findIdx?_eq_some_iff_findIdx_eq.mp h
  have hflt : l.findIdx p < l.length := by rw [h2.2]; exact hi
  have h3 : l[l.findIdx p] = l[i] := by
    congr 1
    exact h2.2
  rw [← h3]
  exact List.findIdx_getElem

theorem getNodeId_spec (entries : List Pt) (pt : Pt) (u : Nat)
    (h : getNodeId entries pt = some u) :
    ∃ hu : u < entries.length, entries[u] = pt := by
  unfold getNodeId at h
  have hu := (List.findIdx?_eq_some_iff_findIdx_eq.mp h).1
  refine ⟨hu, ?_⟩
  have h2 := findIdx?_pred entries _ u h hu
  simpa using h2

theorem rabs_zero : rabs 0 = 0 := by
  unfold rabs
  norm_num

theorem em12_pos : (0 : Rat) < em12 := by
  unfold em12
  norm_num

/-- The valid edges of `bulk_load` resolve to in-range, distinct node
indices: the degenerate-segment filter removes any segment whose endpoints
coincide exactly. -/
theorem validEdges_bounds (entries : List Pt) (lines : List Seg) :
    ∀ p ∈ (lines.filterMap fun line =>
      if rabs (line.start.x - line.stop.x) < em12 &&
          rabs (line.start.y - line.stop.y) < em12 then none
      else
        match getNodeId entries line.start, getNodeId entries line.stop with
        | some u, some v => some (u, v, line)
        | _, _ => none),
      p.1 < entries.length ∧ p.2.1 < entries.length ∧ p.1 ≠ p.2.1 := by
  intro p hp
  obtain ⟨line, hline, hf⟩ := List.mem_filterMap.mp hp
  split_ifs at hf with hcond
  cases hs : getNodeId entries line.start with
  | none =>
    cases ht : getNodeId entries line.stop with
    | none =>
      rw [hs, ht] at hf
      simp at hf
    | some v =>
      rw [hs, ht] at hf
      simp at hf
  | some u =>
    cases ht : getNodeId entries line.stop with
    | none =>
      rw [hs, ht] at hf
      simp at hf
    | some v =>
      rw [hs, ht] at hf
      have hpe : p = (u, v, line) := by
        have h4 := hf
        simp at h4
        exact h4.symm
      obtain ⟨hu, hue⟩ := getNodeId_spec entries line.start u hs
      obtain ⟨hv, hve⟩ := getNodeId_spec entries line.stop v ht
      subst hpe
      refine ⟨hu, hv, ?_⟩
      intro huv
      apply hcond
      have huv2 : u = v := huv
      have heq : line.start = line.stop := by
        rw [← hue, ← hve]
        simp [huv2]
      rw [heq]
      simp [sub_self, rabs_zero, em12_pos]

/-- The fresh node-array graph of `bulk_load` satisfies the arena invariants
vacuously. -/
theorem ringWF_base (entries : List Pt) :
    RingWF
      { nodesX := entries.map (·.x),
        nodesY := entries.map (·.y),
        nodesOutgoing := entries.map fun _ => [],
        nodesDegree := entries.map fun _ => 0,
        nodesMarked := entries.map fun _ => false,
        edges := [], directedEdges := [] } := by
  have hout : ∀ i, (entries.map fun _ => ([] : List Nat)).getD i [] = [] := by
    intro i
    rcases Nat.lt_or_ge i entries.length with hi | hi
    · rw [List.getD_eq_getElem _ _ (by rw [List.length_map]; exact hi), List.getElem_map]
    · exact List.getD_eq_default _ _ (by rw [List.length_map]; exact hi)
  have hdeg : ∀ i, (entries.map fun _ => (0 : Nat)).getD i 0 = 0 := by
    intro i
    rcases Nat.lt_or_ge i entries.length with hi | hi
    · rw [List.getD_eq_getElem _ _ (by rw [List.length_map]; exact hi), List.getElem_map]
    · exact List.getD_eq_default _ _ (by rw [List.length_map]; exact hi)
  refine ⟨?_, ?_, ?_, ?_, ?_, ?_, ?_, ?_, ?_⟩
  · exact fun e he => absurd he (Nat.not_lt_zero e)
  · exact fun e he => absurd he (Nat.not_lt_zero e)
  · exact fun e he => absurd he (Nat.not_lt_zero e)
  · exact fun e he => absurd he (Nat.not_lt_zero e)
  · exact fun e he => absurd he (Nat.not_lt_zero e)
  · intro i e he
    have he2 : e ∈ ([] : List Nat) := by
      rw [← hout i]
      exact he
    exact absurd he2 (List.not_mem_nil e)
  · exact fun e he => absurd he (Nat.not_lt_zero e)
  · intro i
    show ((entries.map fun _ => ([] : List Nat)).getD i []).Nodup
    rw [hout i]
    exact List.nodup_nil
  · intro i
    show (entries.map fun _ => (0 : Nat)).getD i 0 =
      (((entries.map fun _ => ([] : List Nat)).getD i []).filter _).length
    rw [hout i, hdeg i]
    rfl

/-- `bulk_load` establishes the arena invariants. -/
theorem ringWF_bulkLoad (z : Pt → Nat) (lines : List Seg) :
    RingWF (bulkLoad z lines) := by
  unfold bulkLoad
  apply ringWF_foldl
    (dedupBy (fun a b => a = b)
      (stableSort (entryLE z) (lines.flatMap fun l => [l.start, l.stop]))).length
  · exact ringWF_base _
  · exact List.length_map _ _
  · exact List.length_map _ _
  · exact validEdges_bounds _ _

/-- The arena invariants hold for the graph `polygonize` hands to
`get_edge_rings`: built by `bulk_load`, angularly sorted by `sort_edges`,
then dangle-pruned by `prune_dangles`. -/
theorem ringWF_pipeline (z : Pt → Nat) (lines : List Seg) :
    RingWF (pruneDangles (sortEdges (bulkLoad z lines))).1 :=
  ringWF_pruneDangles _ (ringWF_sortEdges _ (ringWF_bulkLoad z lines))

/-- C5: After `sort_edges` and `prune_dangles`, `get_edge_rings` partitions
the live half-edges: its coordinate rings are exactly the images of the
emitted edge rings, and every half-edge that is not marked removed belongs
to exactly one emitted closed edge ring. -/
theorem getEdgeRings_partition (z : Pt → Nat) (lines : List Seg) (e : Nat)
    (he : liveDE (pruneDangles (sortEdges (bulkLoad z lines))).1 e) :
    getEdgeRings (pruneDangles (sortEdges (bulkLoad z lines))).1 =
      (edgeRingsCore (pruneDangles (sortEdges (bulkLoad z lines))).1).map
        (ringCoords (pruneDangles (sortEdges (bulkLoad z lines))).1) ∧
    (edgeRingsCore (pruneDangles (sortEdges (bulkLoad z lines))).1).countP
      (fun r => decide (e ∈ r)) = 1 :=
  ⟨rfl, edgeRingsCore_partition _ (ringWF_pipeline z lines) e he⟩

/-- The triangle input used as the concrete witness scenario. -/
def c5segs : List Seg :=
  [⟨⟨0, 0⟩, ⟨10, 0⟩⟩, ⟨⟨10, 0⟩, ⟨0, 10⟩⟩, ⟨⟨0, 10⟩, ⟨0, 0⟩⟩]

theorem getEdgeRings_partition_witness :
    liveDE (pruneDangles (sortEdges (bulkLoad zConst c5segs))).1 0 ∧
    (getEdgeRings (pruneDangles (sortEdges (bulkLoad zConst c5segs))).1 =
      (edgeRingsCore (pruneDangles (sortEdges (bulkLoad zConst c5segs))).1).map
        (ringCoords (pruneDangles (sortEdges (bulkLoad zConst c5segs))).1) ∧
    (edgeRingsCore (pruneDangles (sortEdges (bulkLoad zConst c5segs))).1).countP
      (fun r => decide ((0 : Nat) ∈ r)) = 1) :=
  ⟨⟨by decide, by decide⟩,
    getEdgeRings_partition zConst c5segs 0 ⟨by decide, by decide⟩⟩

/-- C10: every ring emitted by `get_edge_rings` on the pipeline graph is a
closed coordinate sequence: at least two coordinates, first equal to last
exactly. -/
theorem getEdgeRings_closed (z : Pt → Nat) (lines : List Seg) :
    ∀ ring ∈ getEdgeRings (pruneDangles (sortEdges (bulkLoad z lines))).1,
      2 ≤ ring.length ∧ ring.head? = ring.getLast? := by
  intro ring hring
  obtain ⟨re, hre, hmap⟩ := List.mem_map.mp hring
  rw [← hmap]
  exact ringCoords_closed _ (ringWF_pipeline z lines)
    (edgeRingsCore_good _ (ringWF_pipeline z lines) re hre)

theorem getEdgeRings_closed_witness :
    ((getEdgeRings (pruneDangles (sortEdges (bulkLoad zConst c5segs))).1).getD 0 []) ∈
      getEdgeRings (pruneDangles (sortEdges (bulkLoad zConst c5segs))).1 ∧
    (2 ≤ ((getEdgeRings (pruneDangles (sortEdges (bulkLoad zConst c5segs))).1).getD
        0 []).length ∧
      ((getEdgeRings (pruneDangles (sortEdges (bulkLoad zConst c5segs))).1).getD
        0 []).head? =
      ((getEdgeRings (pruneDangles (sortEdges (bulkLoad zConst c5segs))).1).getD
        0 []).getLast?) :=
  ⟨by decide, getEdgeRings_closed zConst c5segs _ (by decide)⟩

end GeoPolygonize
